import Mathlib

/-!
# Sierpinski gasket demos: the recursive subdividers and their callers

Shallow embedding of

* `sierpinski_gasket_project/gasket_2d_subdivision.cpp`  (namespace `Subdivision2D`)
* `Topic 1/sierpinski_gasket_project/gasket_3d_tetrahedron.cpp` (namespace `Tetrahedron3D`)
* `sierpinski_gasket_project/gasket_2d_random.cpp` (namespace `Random2D`)
* `Topic1LabQuestion2/TurtleOpenGL.cpp` (namespace `TurtleOpenGL`)
* `Topic 4/main.cpp`, the mouse callback (namespace `Stairwell`)

Conventions.

* A C `float` coordinate is a value of a type `F`.  The definitions only use the
  operations the source uses (`+`, `-`, `/` and decimal literals), so every theorem
  stated for an arbitrary `F` holds whatever the arithmetic on coordinates is.
  Theorems about exact arithmetic take `F` to be a linear ordered field (such as `ℚ`).
* A C `int` depth is an `Int`.  The subdividers recurse on `depth - 1` until
  `depth == 0`, which never happens for a negative depth, so they carry a `fuel`
  argument bounding the nesting of calls (the stack): `none` means the bound was hit.
* What a subdivider "emits" is the list, in call order, of the argument tuples it
  hands to the drawing code in its base case.
* `exit(0)` in a callback is the result `none`: there is no state afterwards.
-/

set_option linter.unusedVariables false

namespace Subdivision2D

/-- The C type `point2` (`typedef float point2[2]`): `x` is index 0, `y` is index 1. -/
structure Point2 (F : Type) where
  x : F
  y : F
deriving DecidableEq, Repr

/-- One call `drawTriangle(a, b, c)`: the three corners in argument order. -/
structure Triangle (F : Type) where
  a : Point2 F
  b : Point2 F
  c : Point2 F
deriving DecidableEq, Repr

/-- `const int MAX_DEPTH = 8;` -/
def MAX_DEPTH : Int := 8

/-- `const int MIN_DEPTH = 0;` -/
def MIN_DEPTH : Int := 0

section Geometry

variable {F : Type}

/-- The record of a call `drawTriangle(a, b, c)`. -/
def drawTriangle (a b c : Point2 F) : Triangle F := ⟨a, b, c⟩

/-- The midpoint computation written out twice per edge in `subdivideTriangle`:
`m[0] = (p[0] + q[0]) / 2.0f; m[1] = (p[1] + q[1]) / 2.0f;`. -/
def midpoint [Add F] [Div F] [OfScientific F] (p q : Point2 F) : Point2 F :=
  ⟨(p.x + q.x) / 2.0, (p.y + q.y) / 2.0⟩

/-- `void subdivideTriangle(point2 a, point2 b, point2 c, int depth)`.
Returns the `drawTriangle` calls in order; `fuel` bounds the nesting of recursive calls. -/
def subdivideTriangle [Add F] [Div F] [OfScientific F]
    (fuel : Nat) (a b c : Point2 F) (depth : Int) : Option (List (Triangle F)) :=
  if depth = 0 then
    some [drawTriangle a b c]
  else
    match fuel with
    | 0 => none
    | n + 1 =>
      let ab := midpoint a b
      let bc := midpoint b c
      let ca := midpoint c a
      match subdivideTriangle n a ab ca (depth - 1) with
      | none => none
      | some l1 =>
        match subdivideTriangle n ab b bc (depth - 1) with
        | none => none
        | some l2 =>
          match subdivideTriangle n ca bc c (depth - 1) with
          | none => none
          | some l3 => some (l1 ++ l2 ++ l3)

/-- The global `point2 vertices[3]`: the initial triangle. -/
def vertices [Neg F] [OfScientific F] : Fin 3 → Point2 F
  | 0 => ⟨-0.9, -0.9⟩
  | 1 => ⟨0.9, -0.9⟩
  | 2 => ⟨0.0, 0.9⟩

end Geometry

/-- The mutable globals of the program: `int subdivisionDepth` and `bool fillMode`. -/
structure State where
  subdivisionDepth : Int
  fillMode : Bool
deriving DecidableEq, Repr

/-- The initial values of the globals: `subdivisionDepth = 5`, `fillMode = true`. -/
def initial : State := ⟨5, true⟩

/-- `void keyboard(unsigned char key, int x, int y)`; `none` is `exit(0)`.
Key codes: 27 ESC, 43 `+`, 61 `=`, 45 `-`, 95 `_`, 32 space, 114 `r`, 82 `R`. -/
def keyboard (key : Nat) (x y : Int) (s : State) : Option State :=
  match key with
  | 27 => none
  | 43 | 61 =>
    if s.subdivisionDepth < MAX_DEPTH then
      some { s with subdivisionDepth := s.subdivisionDepth + 1 }
    else
      some s
  | 45 | 95 =>
    if s.subdivisionDepth > MIN_DEPTH then
      some { s with subdivisionDepth := s.subdivisionDepth - 1 }
    else
      some s
  | 32 => some { s with fillMode := !s.fillMode }
  | 114 | 82 => some { subdivisionDepth := 5, fillMode := true }
  | _ => some s

/-- A key press delivered to `keyboard`: the key code and the mouse position. -/
structure KeyPress where
  key : Nat
  x : Int
  y : Int
deriving DecidableEq, Repr

/-- The globals after a sequence of key presses, each handled by `keyboard`;
`none` once the program has exited. -/
def pressKeys (s : State) : List KeyPress → Option State
  | [] => some s
  | k :: ks =>
    match keyboard k.key k.x k.y s with
    | none => none
    | some s1 => pressKeys s1 ks

/-- The `drawTriangle` calls of `void display()`:
`subdivideTriangle(vertices[0], vertices[1], vertices[2], subdivisionDepth)`. -/
def display {F : Type} [Add F] [Div F] [Neg F] [OfScientific F]
    (fuel : Nat) (s : State) : Option (List (Triangle F)) :=
  subdivideTriangle fuel (vertices 0) (vertices 1) (vertices 2) s.subdivisionDepth

/-- Twice the signed area of the triangle `(a, b, c)`: the cross product of `b - a` and `c - a`. -/
def cross {F : Type} [Sub F] [Mul F] (a b c : Point2 F) : F :=
  (b.x - a.x) * (c.y - a.y) - (b.y - a.y) * (c.x - a.x)

/-- A valid triangle: its three corners are not collinear. -/
def nondegenerate {F : Type} [Sub F] [Mul F] [Zero F] (a b c : Point2 F) : Prop :=
  cross a b c ≠ 0

end Subdivision2D

namespace Tetrahedron3D

/-- The C type `point3` (`typedef float point3[3]`): `x`, `y`, `z` are indices 0, 1, 2. -/
structure Point3 (F : Type) where
  x : F
  y : F
  z : F
deriving DecidableEq, Repr

/-- One call `drawTriangle(a, b, c, r, g, blue)`: the corners and the colour. -/
structure Face (F : Type) where
  a : Point3 F
  b : Point3 F
  c : Point3 F
  r : F
  g : F
  blue : F
deriving DecidableEq, Repr

/-- One execution of the base case of `subdivideTetrahedron`: the four corners it was
called with and the `drawTriangle` calls it made, in order. -/
structure Leaf (F : Type) where
  a : Point3 F
  b : Point3 F
  c : Point3 F
  d : Point3 F
  draws : List (Face F)
deriving DecidableEq, Repr

/-- `const int MAX_DEPTH = 6;` -/
def MAX_DEPTH : Int := 6

/-- `const int MIN_DEPTH = 0;` -/
def MIN_DEPTH : Int := 0

/-- `GLUT_KEY_LEFT` of the GLUT header. -/
def GLUT_KEY_LEFT : Int := 100

/-- `GLUT_KEY_UP` of the GLUT header. -/
def GLUT_KEY_UP : Int := 101

/-- `GLUT_KEY_RIGHT` of the GLUT header. -/
def GLUT_KEY_RIGHT : Int := 102

/-- `GLUT_KEY_DOWN` of the GLUT header. -/
def GLUT_KEY_DOWN : Int := 103

section Geometry

variable {F : Type}

/-- The record of a call `drawTriangle(a, b, c, r, g, blue)`. -/
def drawTriangle (a b c : Point3 F) (r g blue : F) : Face F := ⟨a, b, c, r, g, blue⟩

/-- One pass of the loop `for (int i = 0; i < 3; i++) m[i] = (p[i] + q[i]) / 2.0f;`
for one of the six edges. -/
def midpoint [Add F] [Div F] [OfScientific F] (p q : Point3 F) : Point3 F :=
  ⟨(p.x + q.x) / 2.0, (p.y + q.y) / 2.0, (p.z + q.z) / 2.0⟩

/-- The base case of `subdivideTetrahedron`: the four faces, red, green, blue, yellow. -/
def baseCase [OfScientific F] (a b c d : Point3 F) : Leaf F :=
  { a := a, b := b, c := c, d := d,
    draws := [drawTriangle a b c 1.0 0.0 0.0,
              drawTriangle a c d 0.0 1.0 0.0,
              drawTriangle a d b 0.0 0.0 1.0,
              drawTriangle b d c 1.0 1.0 0.0] }

/-- `void subdivideTetrahedron(point3 a, point3 b, point3 c, point3 d, int depth)`.
Returns the base cases reached, in order; `fuel` bounds the nesting of recursive calls. -/
def subdivideTetrahedron [Add F] [Div F] [OfScientific F]
    (fuel : Nat) (a b c d : Point3 F) (depth : Int) : Option (List (Leaf F)) :=
  if depth = 0 then
    some [baseCase a b c d]
  else
    match fuel with
    | 0 => none
    | n + 1 =>
      let ab := midpoint a b
      let ac := midpoint a c
      let ad := midpoint a d
      let bc := midpoint b c
      let bd := midpoint b d
      let cd := midpoint c d
      match subdivideTetrahedron n a ab ac ad (depth - 1) with
      | none => none
      | some l1 =>
        match subdivideTetrahedron n ab b bc bd (depth - 1) with
        | none => none
        | some l2 =>
          match subdivideTetrahedron n ac bc c cd (depth - 1) with
          | none => none
          | some l3 =>
            match subdivideTetrahedron n ad bd cd d (depth - 1) with
            | none => none
            | some l4 => some (l1 ++ l2 ++ l3 ++ l4)

/-- The global `point3 vertices[4]`: the initial tetrahedron. -/
def vertices [Neg F] [OfScientific F] : Fin 4 → Point3 F
  | 0 => ⟨0.0, 1.0, 0.0⟩
  | 1 => ⟨0.0, -0.5, 0.866⟩
  | 2 => ⟨-0.866, -0.5, -0.433⟩
  | 3 => ⟨0.866, -0.5, -0.433⟩

end Geometry

/-- The mutable globals the callbacks `keyboard` and `specialKeys` read or write. -/
structure State (F : Type) where
  subdivisionDepth : Int
  rotationX : F
  rotationY : F
  rotationZ : F
  animating : Bool
  wireframeMode : Bool
deriving DecidableEq, Repr

section Callbacks

variable {F : Type}

/-- The initial values of the globals. -/
def initial [OfScientific F] : State F :=
  { subdivisionDepth := 4, rotationX := 30.0, rotationY := 45.0, rotationZ := 0.0,
    animating := false, wireframeMode := false }

/-- `void keyboard(unsigned char key, int x, int y)`; `none` is `exit(0)`.
Key codes: 27 ESC, 43 `+`, 61 `=`, 45 `-`, 95 `_`, 32 space, 119 `w`, 87 `W`,
114 `r`, 82 `R`. -/
def keyboard [OfScientific F] (key : Nat) (x y : Int) (s : State F) : Option (State F) :=
  match key with
  | 27 => none
  | 43 | 61 =>
    if s.subdivisionDepth < MAX_DEPTH then
      some { s with subdivisionDepth := s.subdivisionDepth + 1 }
    else
      some s
  | 45 | 95 =>
    if s.subdivisionDepth > MIN_DEPTH then
      some { s with subdivisionDepth := s.subdivisionDepth - 1 }
    else
      some s
  | 32 => some { s with animating := !s.animating }
  | 119 | 87 => some { s with wireframeMode := !s.wireframeMode }
  | 114 | 82 =>
    some { s with rotationX := 30.0, rotationY := 45.0, rotationZ := 0.0, animating := false }
  | _ => some s

/-- `void specialKeys(int key, int x, int y)`. -/
def specialKeys [Add F] [Sub F] [OfScientific F] (key x y : Int) (s : State F) : State F :=
  if key = GLUT_KEY_UP then { s with rotationX := s.rotationX + 5.0 }
  else if key = GLUT_KEY_DOWN then { s with rotationX := s.rotationX - 5.0 }
  else if key = GLUT_KEY_LEFT then { s with rotationY := s.rotationY - 5.0 }
  else if key = GLUT_KEY_RIGHT then { s with rotationY := s.rotationY + 5.0 }
  else s

/-- An input event: a call of `keyboard` or a call of `specialKeys`. -/
inductive Event where
  | keyboard (key : Nat) (x y : Int)
  | specialKeys (key x y : Int)
deriving DecidableEq, Repr

/-- The callback GLUT runs for one event; `none` once the program has exited. -/
def handle [Add F] [Sub F] [OfScientific F] (s : State F) : Event → Option (State F)
  | Event.keyboard key x y => keyboard key x y s
  | Event.specialKeys key x y => some (specialKeys key x y s)

/-- The globals after a sequence of events; `none` once the program has exited. -/
def handleAll [Add F] [Sub F] [OfScientific F] (s : State F) : List Event → Option (State F)
  | [] => some s
  | e :: es =>
    match handle s e with
    | none => none
    | some s1 => handleAll s1 es

/-- The base cases reached by `void display()`:
`subdivideTetrahedron(vertices[0], vertices[1], vertices[2], vertices[3], subdivisionDepth)`. -/
def display [Add F] [Div F] [Neg F] [OfScientific F]
    (fuel : Nat) (s : State F) : Option (List (Leaf F)) :=
  subdivideTetrahedron fuel (vertices 0) (vertices 1) (vertices 2) (vertices 3)
    s.subdivisionDepth

end Callbacks

end Tetrahedron3D

namespace Subdivision2D

/-- Re-subdividing each triangle of a list at the given depth, in order, and
concatenating what the calls emit; `none` if one of the calls does not complete. -/
def subdivideEach {F : Type} [Add F] [Div F] [OfScientific F] (fuel : Nat) (depth : Int) :
    List (Triangle F) → Option (List (Triangle F))
  | [] => some []
  | t :: ts =>
    match subdivideTriangle fuel t.a t.b t.c depth with
    | none => none
    | some l1 =>
      match subdivideEach fuel depth ts with
      | none => none
      | some l2 => some (l1 ++ l2)

/-- The corners of the triangles of a list, in order. -/
def cornersOf {F : Type} (l : List (Triangle F)) : List (Point2 F) :=
  l.flatMap fun t => [t.a, t.b, t.c]

/-- The closed region of a triangle: the points that are a convex combination of its
three corners. -/
def inTriangle {F : Type} [LinearOrderedField F] (p : Point2 F) (t : Triangle F) : Prop :=
  ∃ u v w : F, 0 ≤ u ∧ 0 ≤ v ∧ 0 ≤ w ∧ u + v + w = 1 ∧
    p.x = u * t.a.x + v * t.b.x + w * t.c.x ∧
    p.y = u * t.a.y + v * t.b.y + w * t.c.y

/-- The union of the closed regions of the leaves of `(a, b, c)` at depth `d`, by
recursion on the depth along the three recursive calls of `subdivideTriangle`. -/
def inGasket {F : Type} [LinearOrderedField F] : Nat → Point2 F → Point2 F → Point2 F →
    Point2 F → Prop
  | 0, p, a, b, c => inTriangle p ⟨a, b, c⟩
  | d + 1, p, a, b, c =>
    inGasket d p a (midpoint a b) (midpoint c a) ∨
    inGasket d p (midpoint a b) b (midpoint b c) ∨
    inGasket d p (midpoint c a) (midpoint b c) c

end Subdivision2D

namespace Tetrahedron3D

/-- The directed edges along which a drawn triangle is traversed: `a → b → c → a`. -/
def directedEdges {F : Type} (t : Face F) : List (Point3 F × Point3 F) :=
  [(t.a, t.b), (t.b, t.c), (t.c, t.a)]

/-- Whether a point is one of the three corners of a drawn triangle. -/
def hasCorner {F : Type} [DecidableEq F] (p : Point3 F) (t : Face F) : Bool :=
  decide (t.a = p ∨ t.b = p ∨ t.c = p)

end Tetrahedron3D

/-! ## `sierpinski_gasket_project/gasket_2d_random.cpp` -/

namespace Random2D

open Subdivision2D (Point2)

section Program

variable {F : Type}

/-- The global `float vertices[3][2]`: the triangle of the chaos game. -/
def vertices [Neg F] [OfScientific F] : Fin 3 → Point2 F
  | 0 => ⟨-0.9, -0.9⟩
  | 1 => ⟨0.9, -0.9⟩
  | 2 => ⟨0.0, 0.9⟩

/-- `void calculateMidpoint(float p1[2], float p2[2], float result[2])`, returning
`result`. -/
def calculateMidpoint [Add F] [Div F] [OfScientific F] (p1 p2 : Point2 F) : Point2 F :=
  ⟨(p1.x + p2.x) / 2.0, (p1.y + p2.y) / 2.0⟩

/-- The loop `for (int i = 0; i < numPoints; i++)` of `display`, with `n` passes left:
the points it plots, in order.  `rand i` is the value the pass with index `i` gets from
`rand()`. -/
def plotLoop [Add F] [Div F] [Neg F] [OfScientific F] (rand : Nat → Nat) :
    Nat → Nat → Point2 F → List (Point2 F)
  | 0, _, _ => []
  | n + 1, i, currentPoint =>
    let randomVertex : Fin 3 := ⟨rand i % 3, Nat.mod_lt _ (by decide)⟩
    let midpoint := calculateMidpoint currentPoint (vertices randomVertex)
    midpoint :: plotLoop rand n (i + 1) midpoint

/-- What `display` plots: the three reference vertices, then the points of the loop. -/
structure Frame (F : Type) where
  reference : List (Point2 F)
  points : List (Point2 F)

/-- `void display()`, for the value of the global `numPoints` and the values `rand()`
returns: the current point starts at `(0, 0)`. -/
def display [Add F] [Div F] [Neg F] [OfScientific F] (numPoints : Int) (rand : Nat → Nat) :
    Frame F :=
  { reference := [vertices 0, vertices 1, vertices 2],
    points := plotLoop rand numPoints.toNat 0 ⟨0.0, 0.0⟩ }

end Program

end Random2D

/-! ## `Topic1LabQuestion2/TurtleOpenGL.cpp` -/

namespace TurtleOpenGL

/-- The C type `struct Turtle`. -/
structure Turtle (F : Type) where
  x : F
  y : F
  angleDeg : F
  penDown : Bool
  r : F
  g : F
  b : F
deriving DecidableEq, Repr

/-- One line drawn with `GL_LINES`: the colour set by `glColor3f` and the two
`glVertex2f` end points. -/
structure Segment (F : Type) where
  r : F
  g : F
  b : F
  x0 : F
  y0 : F
  x1 : F
  y1 : F
deriving DecidableEq, Repr

section Api

variable {F : Type}

/-- `constexpr float PI = 3.14159265358979323846f;` -/
def PI [OfScientific F] : F := 3.14159265358979323846

/-- `void TurtleRotateLeft(float angleDeg)` on the global `gTurtle`; `fmod` is
`std::fmod`. -/
def TurtleRotateLeft [Add F] [LT F] [∀ a b : F, Decidable (a < b)] [OfScientific F]
    (fmod : F → F → F) (angleDeg : F) (gTurtle : Turtle F) : Turtle F :=
  let t1 := { gTurtle with angleDeg := gTurtle.angleDeg + angleDeg }
  let t2 := { t1 with angleDeg := fmod t1.angleDeg 360.0 }
  if t2.angleDeg < 0.0 then { t2 with angleDeg := t2.angleDeg + 360.0 } else t2

/-- `void TurtleRotateRight(float angleDeg)` on the global `gTurtle`; `fmod` is
`std::fmod`. -/
def TurtleRotateRight [Add F] [Sub F] [LT F] [∀ a b : F, Decidable (a < b)]
    [OfScientific F] (fmod : F → F → F) (angleDeg : F) (gTurtle : Turtle F) : Turtle F :=
  let t1 := { gTurtle with angleDeg := gTurtle.angleDeg - angleDeg }
  let t2 := { t1 with angleDeg := fmod t1.angleDeg 360.0 }
  if t2.angleDeg < 0.0 then { t2 with angleDeg := t2.angleDeg + 360.0 } else t2

/-- `void TurtlePenUp()`. -/
def TurtlePenUp (gTurtle : Turtle F) : Turtle F := { gTurtle with penDown := false }

/-- `void TurtlePenDown()`. -/
def TurtlePenDown (gTurtle : Turtle F) : Turtle F := { gTurtle with penDown := true }

/-- `void TurtleMoveForward(float distance)` on the global `gTurtle`: the new turtle and
the lines drawn; `cos` and `sin` are `std::cos` and `std::sin`. -/
def TurtleMoveForward [Add F] [Mul F] [Div F] [OfScientific F] (cos sin : F → F)
    (distance : F) (gTurtle : Turtle F) : Turtle F × List (Segment F) :=
  let angleRad := gTurtle.angleDeg * PI / 180.0
  let x0 := gTurtle.x
  let y0 := gTurtle.y
  let x1 := x0 + distance * cos angleRad
  let y1 := y0 + distance * sin angleRad
  let drawn : List (Segment F) :=
    if gTurtle.penDown then [⟨gTurtle.r, gTurtle.g, gTurtle.b, x0, y0, x1, y1⟩] else []
  ({ gTurtle with x := x1, y := y1 }, drawn)

end Api

end TurtleOpenGL

/-! ## Arithmetic on `float`: exact, and IEEE 754 binary32

Two readings of the operations on `float` values.  In the exact reading a `float` is a
rational number and every operation is exact.  In the binary32 reading a finite `float`
is the rational number it stands for, and the result of an addition, a subtraction, a
multiplication or a decimal literal is rounded to the nearest number with a 24-bit
significand, ties to even (overflow to infinity and NaN are not modelled); `std::fmod`
is exact in both readings, as IEEE 754 requires.  A `double` is read alike, with a
53-bit significand.  `IEEE32` and `IEEE64` add the infinities and NaN to the finite
numbers, with overflow to an infinity. -/

namespace Exact

/-- Truncation toward zero. -/
def trunc (q : ℚ) : ℤ := if 0 ≤ q then ⌊q⌋ else ⌈q⌉

/-- `std::fmod(x, y)`: `x - n * y` for `n` the quotient `x / y` truncated toward zero. -/
def fmod (x y : ℚ) : ℚ := x - (trunc (x / y) : ℚ) * y

end Exact

/-- A finite `float` of IEEE 754 binary32, as the rational number it stands for. -/
structure Binary32 where
  val : ℚ
deriving DecidableEq

namespace Binary32

/-- Round a rational to the nearest integer, ties to the even one. -/
def roundHalfEven (y : ℚ) : ℤ :=
  if y - ⌊y⌋ < 1 / 2 then ⌊y⌋
  else if 1 / 2 < y - ⌊y⌋ then ⌊y⌋ + 1
  else if ⌊y⌋ % 2 = 0 then ⌊y⌋ else ⌊y⌋ + 1

/-- The spacing of binary32 numbers around `x`: `2 ^ (e - 23)` for `e` the exponent of
`x`, which is at least `-126`. -/
def quantum (x : ℚ) : ℚ := (2 : ℚ) ^ (max (Int.log 2 |x|) (-126) - 23)

/-- Rounding to the nearest binary32 number, ties to even. -/
def round (x : ℚ) : ℚ := (roundHalfEven (x / quantum x) : ℚ) * quantum x

instance : Add Binary32 := ⟨fun a b => ⟨round (a.val + b.val)⟩⟩

instance : Sub Binary32 := ⟨fun a b => ⟨round (a.val - b.val)⟩⟩

instance : LT Binary32 := ⟨fun a b => a.val < b.val⟩

instance (a b : Binary32) : Decidable (a < b) := inferInstanceAs (Decidable (a.val < b.val))

instance : OfScientific Binary32 :=
  ⟨fun m s e => ⟨round (OfScientific.ofScientific m s e)⟩⟩

/-- `std::fmod` on binary32 numbers: the exact remainder, which is a binary32 number. -/
def fmod (x y : Binary32) : Binary32 := ⟨Exact.fmod x.val y.val⟩

instance : Div Binary32 := ⟨fun a b => ⟨round (a.val / b.val)⟩⟩

end Binary32

/-- A `float` of IEEE 754 binary32 with its special values: a finite number, the
infinity of either sign, or a NaN.  The two zeros are not told apart. -/
inductive IEEE32 where
  | finite (x : Binary32)
  | infinite (negative : Bool)
  | nan
deriving DecidableEq

namespace IEEE32

/-- The rationals that are binary32 numbers: rounding leaves them unchanged and their
magnitude is below `2 ^ 128`. -/
def isFloat (x : ℚ) : Prop := Binary32.round x = x ∧ |x| < 2 ^ 128

/-- The `float` an exact result is rounded to: the nearest binary32 number, ties to even,
and the infinity of its sign when that number has magnitude `2 ^ 128` or more. -/
def ofRat (x : ℚ) : IEEE32 :=
  if |Binary32.round x| < 2 ^ 128 then finite ⟨Binary32.round x⟩
  else infinite (decide (x < 0))

/-- Negation. -/
def neg : IEEE32 → IEEE32
  | finite a => finite ⟨-a.val⟩
  | infinite s => infinite (!s)
  | nan => nan

/-- Addition: infinities of opposite signs give a NaN. -/
def add : IEEE32 → IEEE32 → IEEE32
  | finite a, finite b => ofRat (a.val + b.val)
  | finite _, infinite s => infinite s
  | infinite s, finite _ => infinite s
  | infinite s, infinite t => if s = t then infinite s else nan
  | nan, _ => nan
  | _, nan => nan

/-- Multiplication: zero times an infinity gives a NaN. -/
def mul : IEEE32 → IEEE32 → IEEE32
  | finite a, finite b => ofRat (a.val * b.val)
  | finite a, infinite s => if a.val = 0 then nan else infinite (xor (decide (a.val < 0)) s)
  | infinite s, finite b => if b.val = 0 then nan else infinite (xor s (decide (b.val < 0)))
  | infinite s, infinite t => infinite (xor s t)
  | nan, _ => nan
  | _, nan => nan

/-- Division: a non-zero number over zero gives an infinity (the zero taken positive),
zero over zero and infinity over infinity give a NaN. -/
def div : IEEE32 → IEEE32 → IEEE32
  | finite a, finite b =>
    if b.val = 0 then (if a.val = 0 then nan else infinite (decide (a.val < 0)))
    else ofRat (a.val / b.val)
  | finite _, infinite _ => finite ⟨0⟩
  | infinite s, finite b => infinite (xor s (decide (b.val < 0)))
  | infinite _, infinite _ => nan
  | nan, _ => nan
  | _, nan => nan

/-- The comparison `<`: false as soon as one side is a NaN. -/
def lt : IEEE32 → IEEE32 → Bool
  | finite a, finite b => decide (a.val < b.val)
  | finite _, infinite s => !s
  | infinite s, finite _ => s
  | infinite s, infinite t => s && !t
  | nan, _ => false
  | _, nan => false

instance : Neg IEEE32 := ⟨neg⟩

instance : Add IEEE32 := ⟨add⟩

instance : Sub IEEE32 := ⟨fun a b => add a (neg b)⟩

instance : Mul IEEE32 := ⟨mul⟩

instance : Div IEEE32 := ⟨div⟩

instance : LT IEEE32 := ⟨fun a b => lt a b = true⟩

instance (a b : IEEE32) : Decidable (a < b) := inferInstanceAs (Decidable (lt a b = true))

instance : OfScientific IEEE32 := ⟨fun m s e => ofRat (OfScientific.ofScientific m s e)⟩

end IEEE32

/-- A finite `double` of IEEE 754 binary64, as the rational number it stands for. -/
structure Binary64 where
  val : ℚ
deriving DecidableEq

namespace Binary64

/-- The spacing of binary64 numbers around `x`: `2 ^ (e - 52)` for `e` the exponent of
`x`, which is at least `-1022`. -/
def quantum (x : ℚ) : ℚ := (2 : ℚ) ^ (max (Int.log 2 |x|) (-1022) - 52)

/-- Rounding to the nearest binary64 number, ties to even. -/
def round (x : ℚ) : ℚ := (Binary32.roundHalfEven (x / quantum x) : ℚ) * quantum x

/-- The conversion of a finite `double` to `float`: rounding to the nearest binary32
number, and to an infinity when the `double` is beyond the range of `float`. -/
def toFloat (d : Binary64) : IEEE32 := IEEE32.ofRat d.val

/-- The conversion of a finite `float` to `double`, which is exact. -/
def ofFloat (f : Binary32) : Binary64 := ⟨f.val⟩

end Binary64

/-- A `double` of IEEE 754 binary64 with its special values. -/
inductive IEEE64 where
  | finite (x : Binary64)
  | infinite (negative : Bool)
  | nan
deriving DecidableEq

namespace IEEE64

/-- The `double` an exact result is rounded to, with overflow to the infinities. -/
def ofRat (x : ℚ) : IEEE64 :=
  if |Binary64.round x| < 2 ^ 1024 then finite ⟨Binary64.round x⟩
  else infinite (decide (x < 0))

/-- Subtraction: infinities of the same sign give a NaN. -/
def sub : IEEE64 → IEEE64 → IEEE64
  | finite a, finite b => ofRat (a.val - b.val)
  | finite _, infinite s => infinite (!s)
  | infinite s, finite _ => infinite s
  | infinite s, infinite t => if s = t then nan else infinite s
  | nan, _ => nan
  | _, nan => nan

instance : Sub IEEE64 := ⟨sub⟩

/-- The conversion `double` to `float` of an assignment such as `lastX = xpos`. -/
def toFloat : IEEE64 → IEEE32
  | finite d => d.toFloat
  | infinite s => IEEE32.infinite s
  | nan => IEEE32.nan

/-- The conversion `float` to `double` of a mixed operation such as `xpos - lastX`. -/
def ofFloat : IEEE32 → IEEE64
  | IEEE32.finite f => finite (Binary64.ofFloat f)
  | IEEE32.infinite s => infinite s
  | IEEE32.nan => nan

end IEEE64

namespace Tetrahedron3D

/-- Re-subdividing each leaf of a list at the given depth, in order, and concatenating
what the calls emit; `none` if one of the calls does not complete. -/
def subdivideEach {F : Type} [Add F] [Div F] [OfScientific F] (fuel : Nat) (depth : Int) :
    List (Leaf F) → Option (List (Leaf F))
  | [] => some []
  | t :: ts =>
    match subdivideTetrahedron fuel t.a t.b t.c t.d depth with
    | none => none
    | some l1 =>
      match subdivideEach fuel depth ts with
      | none => none
      | some l2 => some (l1 ++ l2)

end Tetrahedron3D

namespace Random2D

/-- `void keyboard(unsigned char key, int x, int y)` of the chaos-game program, on the
global `int numPoints`; `none` is `exit(0)`.
Key codes: 27 ESC, 43 `+`, 61 `=`, 45 `-`, 95 `_`, 114 `r`, 82 `R`. -/
def keyboard (key : Nat) (x y : Int) (numPoints : Int) : Option Int :=
  match key with
  | 27 => none
  | 43 | 61 => some (numPoints + 5000)
  | 45 | 95 =>
    if numPoints > 5000 then
      some (numPoints - 5000)
    else
      some numPoints
  | 114 | 82 => some numPoints
  | _ => some numPoints

/-- The value of `numPoints` after a sequence of key presses, each handled by
`keyboard`; `none` once the program has exited. -/
def pressKeys (numPoints : Int) : List Subdivision2D.KeyPress → Option Int
  | [] => some numPoints
  | k :: ks =>
    match keyboard k.key k.x k.y numPoints with
    | none => none
    | some n => pressKeys n ks

/-- The initial value of the global: `int numPoints = 50000;`. -/
def initialNumPoints : Int := 50000

end Random2D

/-! ## `Topic 4/main.cpp`: the camera of the stairwell scene -/

namespace Stairwell

/-- The type `glm::vec3`. -/
structure Vec3 (F : Type) where
  x : F
  y : F
  z : F
deriving DecidableEq, Repr

/-- The globals `mouse_callback` reads or writes. -/
structure Camera (F : Type) where
  cameraFront : Vec3 F
  lastX : F
  lastY : F
  firstMouse : Bool
  yaw : F
  pitch : F
deriving DecidableEq, Repr

section Callback

variable {D F : Type}

/-- The initial values of the globals, with `SCREEN_WIDTH = 1200` and
`SCREEN_HEIGHT = 900`. -/
def initial [Div F] [Neg F] [OfScientific F] : Camera F :=
  { cameraFront := ⟨0.0, 0.0, -1.0⟩, lastX := 1200.0 / 2.0, lastY := 900.0 / 2.0,
    firstMouse := true, yaw := -90.0, pitch := 0.0 }

/-- `void mouse_callback(GLFWwindow* window, double xpos, double ypos)`.
`D` is `double` and `F` is `float`: `toFloat` and `toDouble` are the conversions the
assignments and the mixed subtractions make; `cos`, `sin`, `radians` and `normalize`
are `cos`, `sin`, `glm::radians` and `glm::normalize`. -/
def mouse_callback [Sub D] [Add F] [Mul F] [Neg F] [LT F] [∀ a b : F, Decidable (a < b)]
    [OfScientific F] (toFloat : D → F) (toDouble : F → D) (cos sin radians : F → F)
    (normalize : Vec3 F → Vec3 F) (xpos ypos : D) (s : Camera F) : Camera F :=
  let s1 :=
    if s.firstMouse then
      { s with lastX := toFloat xpos, lastY := toFloat ypos, firstMouse := false }
    else s
  let xoffset : F := toFloat (xpos - toDouble s1.lastX)
  let yoffset : F := toFloat (toDouble s1.lastY - ypos)
  let s2 := { s1 with lastX := toFloat xpos, lastY := toFloat ypos }
  let sensitivity : F := 0.1
  let xoffset := xoffset * sensitivity
  let yoffset := yoffset * sensitivity
  let s3 := { s2 with yaw := s2.yaw + xoffset, pitch := s2.pitch + yoffset }
  let s4 := if s3.pitch > 89.0 then { s3 with pitch := 89.0 } else s3
  let s5 := if s4.pitch < -89.0 then { s4 with pitch := -89.0 } else s4
  let direction : Vec3 F :=
    ⟨cos (radians s5.yaw) * cos (radians s5.pitch), sin (radians s5.pitch),
     sin (radians s5.yaw) * cos (radians s5.pitch)⟩
  { s5 with cameraFront := normalize direction }

end Callback

end Stairwell

/-! ## The 2D subdivider: unfolding and fuel -/

namespace Subdivision2D

section Unfolding

variable {F : Type} [Add F] [Div F] [OfScientific F]

theorem subdivideTriangle_zero (fuel : Nat) (a b c : Point2 F) :
    subdivideTriangle fuel a b c 0 = some [drawTriangle a b c] := by
  unfold subdivideTriangle
  simp

theorem subdivideTriangle_no_fuel (a b c : Point2 F) (depth : Int) (h : depth ≠ 0) :
    subdivideTriangle 0 a b c depth = none := by
  unfold subdivideTriangle
  simp [h]

theorem subdivideTriangle_succ (n : Nat) (a b c : Point2 F) (depth : Int) (h : depth ≠ 0) :
    subdivideTriangle (n + 1) a b c depth =
      (subdivideTriangle n a (midpoint a b) (midpoint c a) (depth - 1)).bind fun l1 =>
      (subdivideTriangle n (midpoint a b) b (midpoint b c) (depth - 1)).bind fun l2 =>
      (subdivideTriangle n (midpoint c a) (midpoint b c) c (depth - 1)).bind fun l3 =>
        some (l1 ++ l2 ++ l3) := by
  conv_lhs => unfold subdivideTriangle
  simp only [h, if_false]
  cases subdivideTriangle n a (midpoint a b) (midpoint c a) (depth - 1) <;> simp
  cases subdivideTriangle n (midpoint a b) b (midpoint b c) (depth - 1) <;> simp
  cases subdivideTriangle n (midpoint c a) (midpoint b c) c (depth - 1) <;> simp

/-- Induction over the call tree: a property of the emitted list that holds in the base
case and is carried from the three recursive calls to their caller holds of the list
emitted at every depth `d`, which exists whenever the fuel is at least `d`. -/
theorem subdivideTriangle_induct
    (P : Nat → Point2 F → Point2 F → Point2 F → List (Triangle F) → Prop)
    (base : ∀ a b c, P 0 a b c [drawTriangle a b c])
    (step : ∀ d a b c l1 l2 l3,
      P d a (midpoint a b) (midpoint c a) l1 →
      P d (midpoint a b) b (midpoint b c) l2 →
      P d (midpoint c a) (midpoint b c) c l3 →
      P (d + 1) a b c (l1 ++ l2 ++ l3)) :
    ∀ (d k : Nat) (a b c : Point2 F),
      ∃ l, subdivideTriangle (d + k) a b c (d : Int) = some l ∧ P d a b c l := by
  intro d
  induction d with
  | zero =>
    intro k a b c
    exact ⟨_, by simpa using subdivideTriangle_zero (0 + k) a b c, base a b c⟩
  | succ d ih =>
    intro k a b c
    obtain ⟨l1, h1, p1⟩ := ih k a (midpoint a b) (midpoint c a)
    obtain ⟨l2, h2, p2⟩ := ih k (midpoint a b) b (midpoint b c)
    obtain ⟨l3, h3, p3⟩ := ih k (midpoint c a) (midpoint b c) c
    refine ⟨l1 ++ l2 ++ l3, ?_, step d a b c l1 l2 l3 p1 p2 p3⟩
    have hne : ((d + 1 : Nat) : Int) ≠ 0 := by omega
    have hfuel : d + 1 + k = (d + k) + 1 := by omega
    have hdep : ((d + 1 : Nat) : Int) - 1 = (d : Int) := by omega
    rw [hfuel, subdivideTriangle_succ _ _ _ _ _ hne, hdep, h1, h2, h3]
    rfl

/-- With fewer than `d` levels of nesting allowed, a call at depth `d` does not complete. -/
theorem subdivideTriangle_short (fuel : Nat) :
    ∀ (d : Nat) (a b c : Point2 F), fuel < d →
      subdivideTriangle fuel a b c (d : Int) = none := by
  induction fuel with
  | zero =>
    intro d a b c h
    exact subdivideTriangle_no_fuel a b c d (by omega)
  | succ n ih =>
    intro d a b c h
    have hne : (d : Int) ≠ 0 := by omega
    have hdep : (d : Int) - 1 = ((d - 1 : Nat) : Int) := by omega
    rw [subdivideTriangle_succ _ _ _ _ _ hne, hdep, ih (d - 1) _ _ _ (by omega)]
    rfl

end Unfolding

end Subdivision2D

/-! ## The 3D subdivider: unfolding and fuel -/

namespace Tetrahedron3D

section Unfolding

variable {F : Type} [Add F] [Div F] [OfScientific F]

theorem subdivideTetrahedron_zero (fuel : Nat) (a b c d : Point3 F) :
    subdivideTetrahedron fuel a b c d 0 = some [baseCase a b c d] := by
  unfold subdivideTetrahedron
  simp

theorem subdivideTetrahedron_no_fuel (a b c d : Point3 F) (depth : Int) (h : depth ≠ 0) :
    subdivideTetrahedron 0 a b c d depth = none := by
  unfold subdivideTetrahedron
  simp [h]

theorem subdivideTetrahedron_succ (n : Nat) (a b c d : Point3 F) (depth : Int)
    (h : depth ≠ 0) :
    subdivideTetrahedron (n + 1) a b c d depth =
      (subdivideTetrahedron n a (midpoint a b) (midpoint a c) (midpoint a d)
        (depth - 1)).bind fun l1 =>
      (subdivideTetrahedron n (midpoint a b) b (midpoint b c) (midpoint b d)
        (depth - 1)).bind fun l2 =>
      (subdivideTetrahedron n (midpoint a c) (midpoint b c) c (midpoint c d)
        (depth - 1)).bind fun l3 =>
      (subdivideTetrahedron n (midpoint a d) (midpoint b d) (midpoint c d) d
        (depth - 1)).bind fun l4 =>
        some (l1 ++ l2 ++ l3 ++ l4) := by
  conv_lhs => unfold subdivideTetrahedron
  simp only [h, if_false]
  cases subdivideTetrahedron n a (midpoint a b) (midpoint a c) (midpoint a d) (depth - 1) <;>
    simp
  cases subdivideTetrahedron n (midpoint a b) b (midpoint b c) (midpoint b d) (depth - 1) <;>
    simp
  cases subdivideTetrahedron n (midpoint a c) (midpoint b c) c (midpoint c d) (depth - 1) <;>
    simp
  cases subdivideTetrahedron n (midpoint a d) (midpoint b d) (midpoint c d) d (depth - 1) <;>
    simp

/-- Induction over the call tree of `subdivideTetrahedron`, as for the 2D subdivider. -/
theorem subdivideTetrahedron_induct
    (P : Nat → Point3 F → Point3 F → Point3 F → Point3 F → List (Leaf F) → Prop)
    (base : ∀ a b c d, P 0 a b c d [baseCase a b c d])
    (step : ∀ n a b c d l1 l2 l3 l4,
      P n a (midpoint a b) (midpoint a c) (midpoint a d) l1 →
      P n (midpoint a b) b (midpoint b c) (midpoint b d) l2 →
      P n (midpoint a c) (midpoint b c) c (midpoint c d) l3 →
      P n (midpoint a d) (midpoint b d) (midpoint c d) d l4 →
      P (n + 1) a b c d (l1 ++ l2 ++ l3 ++ l4)) :
    ∀ (n k : Nat) (a b c d : Point3 F),
      ∃ l, subdivideTetrahedron (n + k) a b c d (n : Int) = some l ∧ P n a b c d l := by
  intro n
  induction n with
  | zero =>
    intro k a b c d
    exact ⟨_, by simpa using subdivideTetrahedron_zero (0 + k) a b c d, base a b c d⟩
  | succ n ih =>
    intro k a b c d
    obtain ⟨l1, h1, p1⟩ := ih k a (midpoint a b) (midpoint a c) (midpoint a d)
    obtain ⟨l2, h2, p2⟩ := ih k (midpoint a b) b (midpoint b c) (midpoint b d)
    obtain ⟨l3, h3, p3⟩ := ih k (midpoint a c) (midpoint b c) c (midpoint c d)
    obtain ⟨l4, h4, p4⟩ := ih k (midpoint a d) (midpoint b d) (midpoint c d) d
    refine ⟨l1 ++ l2 ++ l3 ++ l4, ?_, step n a b c d l1 l2 l3 l4 p1 p2 p3 p4⟩
    have hne : ((n + 1 : Nat) : Int) ≠ 0 := by omega
    have hfuel : n + 1 + k = (n + k) + 1 := by omega
    have hdep : ((n + 1 : Nat) : Int) - 1 = (n : Int) := by omega
    rw [hfuel, subdivideTetrahedron_succ _ _ _ _ _ _ hne, hdep, h1, h2, h3, h4]
    rfl

/-- With fewer than `n` levels of nesting allowed, a call at depth `n` does not complete. -/
theorem subdivideTetrahedron_short (fuel : Nat) :
    ∀ (n : Nat) (a b c d : Point3 F), fuel < n →
      subdivideTetrahedron fuel a b c d (n : Int) = none := by
  induction fuel with
  | zero =>
    intro n a b c d h
    exact subdivideTetrahedron_no_fuel a b c d n (by omega)
  | succ m ih =>
    intro n a b c d h
    have hne : (n : Int) ≠ 0 := by omega
    have hdep : (n : Int) - 1 = ((n - 1 : Nat) : Int) := by omega
    rw [subdivideTetrahedron_succ _ _ _ _ _ _ hne, hdep, ih (n - 1) _ _ _ _ (by omega)]
    rfl

end Unfolding

end Tetrahedron3D

/-! ## Claims on the shape of the recursion -/

namespace Subdivision2D

/-- C1. For every depth `d ≥ 0` and every triangle `(a, b, c)`, whatever the arithmetic
on coordinates, `subdivideTriangle(a, b, c, d)` completes (any bound of at least `d`
nested calls is enough) and passes exactly `3^d` triangles to `drawTriangle`. -/
theorem C1_subdivideTriangle_emits_three_pow {F : Type} [Add F] [Div F] [OfScientific F]
    (d k : Nat) (a b c : Point2 F) :
    ∃ l, subdivideTriangle (d + k) a b c (d : Int) = some l ∧ l.length = 3 ^ d := by
  refine subdivideTriangle_induct (fun d _ _ _ l => l.length = 3 ^ d) ?_ ?_ d k a b c
  · intro a b c
    rfl
  · intro d a b c l1 l2 l3 h1 h2 h3
    simp only [List.length_append, h1, h2, h3]
    ring

/-- C3. For every triangle `(a, b, c)`, whatever the arithmetic on coordinates,
`subdivideTriangle` at depth 1 emits exactly the three leaves `(a, ab, ca)`,
`(ab, b, bc)`, `(ca, bc, c)` in this order, where each two-letter point has as
coordinates the sum of the two endpoints' coordinates divided by `2.0`; for the
program's initial triangle, in exact arithmetic, `AB = (0, -0.9)`, `BC = (0.45, 0)`
and `CA = (-0.45, 0)`. -/
theorem C3_subdivideTriangle_depth_one :
    (∀ (F : Type) [Add F] [Div F] [OfScientific F] (k : Nat) (a b c : Point2 F),
      subdivideTriangle (k + 1) a b c 1 =
        some [⟨a, ⟨(a.x + b.x) / 2.0, (a.y + b.y) / 2.0⟩,
                  ⟨(c.x + a.x) / 2.0, (c.y + a.y) / 2.0⟩⟩,
              ⟨⟨(a.x + b.x) / 2.0, (a.y + b.y) / 2.0⟩, b,
                  ⟨(b.x + c.x) / 2.0, (b.y + c.y) / 2.0⟩⟩,
              ⟨⟨(c.x + a.x) / 2.0, (c.y + a.y) / 2.0⟩,
                  ⟨(b.x + c.x) / 2.0, (b.y + c.y) / 2.0⟩, c⟩]) ∧
    (∀ k : Nat,
      subdivideTriangle (k + 1) (vertices 0 : Point2 ℚ) (vertices 1) (vertices 2) 1 =
        some [⟨⟨-0.9, -0.9⟩, ⟨0, -0.9⟩, ⟨-0.45, 0⟩⟩,
              ⟨⟨0, -0.9⟩, ⟨0.9, -0.9⟩, ⟨0.45, 0⟩⟩,
              ⟨⟨-0.45, 0⟩, ⟨0.45, 0⟩, ⟨0, 0.9⟩⟩]) := by
  have general : ∀ (F : Type) [Add F] [Div F] [OfScientific F] (k : Nat) (a b c : Point2 F),
      subdivideTriangle (k + 1) a b c 1 =
        some [drawTriangle a (midpoint a b) (midpoint c a),
              drawTriangle (midpoint a b) b (midpoint b c),
              drawTriangle (midpoint c a) (midpoint b c) c] := by
    intro F _ _ _ k a b c
    rw [subdivideTriangle_succ _ _ _ _ _ (by decide)]
    simp only [show (1 : Int) - 1 = 0 by decide, subdivideTriangle_zero]
    rfl
  refine ⟨fun F _ _ _ k a b c => ?_, fun k => ?_⟩
  · rw [general]
    rfl
  · rw [general]
    simp only [drawTriangle, midpoint, vertices, Option.some.injEq, List.cons.injEq,
      Triangle.mk.injEq, Point2.mk.injEq]
    norm_num

/-- C4. For every triangle `(a, b, c)`, whatever the arithmetic on coordinates and
whatever the bound on nested calls, `subdivideTriangle` at depth 0 emits exactly one
leaf, `(a, b, c)` itself with its corners unchanged and in the same order; in
particular for the program's initial triangle. -/
theorem C4_subdivideTriangle_depth_zero :
    (∀ (F : Type) [Add F] [Div F] [OfScientific F] (fuel : Nat) (a b c : Point2 F),
      subdivideTriangle fuel a b c 0 = some [⟨a, b, c⟩]) ∧
    (∀ fuel : Nat,
      subdivideTriangle fuel (vertices 0 : Point2 ℚ) (vertices 1) (vertices 2) 0 =
        some [⟨⟨-0.9, -0.9⟩, ⟨0.9, -0.9⟩, ⟨0, 0.9⟩⟩]) := by
  refine ⟨fun F _ _ _ fuel a b c => ?_, fun fuel => ?_⟩
  · rw [subdivideTriangle_zero]
    rfl
  · rw [subdivideTriangle_zero]
    simp only [drawTriangle, vertices, Option.some.injEq, List.cons.injEq,
      Triangle.mk.injEq, Point2.mk.injEq]
    norm_num

end Subdivision2D

namespace Tetrahedron3D

/-- C2. For every depth `n ≥ 0` and every tetrahedron `(a, b, c, d)`, whatever the
arithmetic on coordinates, `subdivideTetrahedron` completes (any bound of at least `n`
nested calls is enough) and reaches its base case exactly `4^n` times. -/
theorem C2_subdivideTetrahedron_emits_four_pow {F : Type} [Add F] [Div F] [OfScientific F]
    (n k : Nat) (a b c d : Point3 F) :
    ∃ l, subdivideTetrahedron (n + k) a b c d (n : Int) = some l ∧ l.length = 4 ^ n := by
  refine subdivideTetrahedron_induct (fun n _ _ _ _ l => l.length = 4 ^ n) ?_ ?_ n k a b c d
  · intro a b c d
    rfl
  · intro n a b c d l1 l2 l3 l4 h1 h2 h3 h4
    simp only [List.length_append, h1, h2, h3, h4]
    ring

end Tetrahedron3D

namespace Tetrahedron3D

/-- C6. For every tetrahedron `(a, b, c, d)`, whatever the arithmetic on coordinates,
`subdivideTetrahedron` at depth 1 reaches its base case for exactly the four corner
sub-tetrahedra `(a, ab, ac, ad)`, `(ab, b, bc, bd)`, `(ac, bc, c, cd)`, `(ad, bd, cd, d)`,
in this order, where each two-letter point has as coordinates the sum of the two named
corners' coordinates divided by `2.0`; each of the four keeps one original corner in its
own position, so no leaf is built from midpoints alone. -/
theorem C6_subdivideTetrahedron_depth_one {F : Type} [Add F] [Div F] [OfScientific F]
    (k : Nat) (a b c d : Point3 F) :
    ∃ ab ac ad bc bd cd : Point3 F, ∃ l : List (Leaf F),
      ab = ⟨(a.x + b.x) / 2.0, (a.y + b.y) / 2.0, (a.z + b.z) / 2.0⟩ ∧
      ac = ⟨(a.x + c.x) / 2.0, (a.y + c.y) / 2.0, (a.z + c.z) / 2.0⟩ ∧
      ad = ⟨(a.x + d.x) / 2.0, (a.y + d.y) / 2.0, (a.z + d.z) / 2.0⟩ ∧
      bc = ⟨(b.x + c.x) / 2.0, (b.y + c.y) / 2.0, (b.z + c.z) / 2.0⟩ ∧
      bd = ⟨(b.x + d.x) / 2.0, (b.y + d.y) / 2.0, (b.z + d.z) / 2.0⟩ ∧
      cd = ⟨(c.x + d.x) / 2.0, (c.y + d.y) / 2.0, (c.z + d.z) / 2.0⟩ ∧
      subdivideTetrahedron (k + 1) a b c d 1 = some l ∧
      l = [baseCase a ab ac ad, baseCase ab b bc bd, baseCase ac bc c cd,
           baseCase ad bd cd d] ∧
      l.map (fun t => (t.a, t.b, t.c, t.d)) =
        [(a, ab, ac, ad), (ab, b, bc, bd), (ac, bc, c, cd), (ad, bd, cd, d)] ∧
      ∀ t ∈ l, t.a = a ∨ t.b = b ∨ t.c = c ∨ t.d = d := by
  refine ⟨midpoint a b, midpoint a c, midpoint a d, midpoint b c, midpoint b d,
    midpoint c d, _, rfl, rfl, rfl, rfl, rfl, rfl, ?_, rfl, ?_, ?_⟩
  · rw [subdivideTetrahedron_succ _ _ _ _ _ _ (by decide)]
    simp only [show (1 : Int) - 1 = 0 by decide, subdivideTetrahedron_zero]
    rfl
  · rfl
  · intro t ht
    simp only [List.mem_cons, List.mem_singleton, List.not_mem_nil, or_false] at ht
    rcases ht with h | h | h | h <;> subst h <;> simp [baseCase]

end Tetrahedron3D

namespace Subdivision2D

/-- C7. For every depth `d ≥ 0`, `subdivideTriangle` and `subdivideTetrahedron`
terminate, with calls nested exactly `d` deep: a call at depth `d` completes if and
only if at least `d` levels of nested calls are allowed.  A call at depth 0 makes no
recursive call, and a call at any other depth makes each of its recursive calls with
depth exactly one less. -/
theorem C7_subdividers_terminate {F : Type} [Add F] [Div F] [OfScientific F] (d : Nat) :
    (∀ (fuel : Nat) (a b c : Point2 F),
      (subdivideTriangle fuel a b c (d : Int)).isSome = true ↔ d ≤ fuel) ∧
    (∀ (fuel : Nat) (a b c e : Tetrahedron3D.Point3 F),
      (Tetrahedron3D.subdivideTetrahedron fuel a b c e (d : Int)).isSome = true ↔
        d ≤ fuel) ∧
    (∀ (a b c : Point2 F), subdivideTriangle 0 a b c 0 = some [drawTriangle a b c]) ∧
    (∀ (a b c e : Tetrahedron3D.Point3 F),
      Tetrahedron3D.subdivideTetrahedron 0 a b c e 0 =
        some [Tetrahedron3D.baseCase a b c e]) ∧
    (∀ (n : Nat) (a b c : Point2 F) (depth : Int), depth ≠ 0 →
      subdivideTriangle (n + 1) a b c depth =
        (subdivideTriangle n a (midpoint a b) (midpoint c a) (depth - 1)).bind fun l1 =>
        (subdivideTriangle n (midpoint a b) b (midpoint b c) (depth - 1)).bind fun l2 =>
        (subdivideTriangle n (midpoint c a) (midpoint b c) c (depth - 1)).bind fun l3 =>
          some (l1 ++ l2 ++ l3)) ∧
    (∀ (n : Nat) (a b c e : Tetrahedron3D.Point3 F) (depth : Int), depth ≠ 0 →
      Tetrahedron3D.subdivideTetrahedron (n + 1) a b c e depth =
        (Tetrahedron3D.subdivideTetrahedron n a (Tetrahedron3D.midpoint a b)
          (Tetrahedron3D.midpoint a c) (Tetrahedron3D.midpoint a e)
          (depth - 1)).bind fun l1 =>
        (Tetrahedron3D.subdivideTetrahedron n (Tetrahedron3D.midpoint a b) b
          (Tetrahedron3D.midpoint b c) (Tetrahedron3D.midpoint b e)
          (depth - 1)).bind fun l2 =>
        (Tetrahedron3D.subdivideTetrahedron n (Tetrahedron3D.midpoint a c)
          (Tetrahedron3D.midpoint b c) c (Tetrahedron3D.midpoint c e)
          (depth - 1)).bind fun l3 =>
        (Tetrahedron3D.subdivideTetrahedron n (Tetrahedron3D.midpoint a e)
          (Tetrahedron3D.midpoint b e) (Tetrahedron3D.midpoint c e) e
          (depth - 1)).bind fun l4 =>
          some (l1 ++ l2 ++ l3 ++ l4)) := by
  refine ⟨?_, ?_, fun a b c => subdivideTriangle_zero 0 a b c,
    fun a b c e => Tetrahedron3D.subdivideTetrahedron_zero 0 a b c e,
    fun n a b c depth h => subdivideTriangle_succ n a b c depth h,
    fun n a b c e depth h => Tetrahedron3D.subdivideTetrahedron_succ n a b c e depth h⟩
  · intro fuel a b c
    constructor
    · intro h
      by_contra hlt
      rw [subdivideTriangle_short fuel d a b c (by omega)] at h
      simp at h
    · intro h
      obtain ⟨k, rfl⟩ := Nat.exists_eq_add_of_le h
      obtain ⟨l, hl, _⟩ :=
        subdivideTriangle_induct (fun _ _ _ _ _ => True) (fun _ _ _ => trivial)
          (fun _ _ _ _ _ _ _ _ _ _ => trivial) d k a b c
      rw [hl]
      rfl
  · intro fuel a b c e
    constructor
    · intro h
      by_contra hlt
      rw [Tetrahedron3D.subdivideTetrahedron_short fuel d a b c e (by omega)] at h
      simp at h
    · intro h
      obtain ⟨k, rfl⟩ := Nat.exists_eq_add_of_le h
      obtain ⟨l, hl, _⟩ :=
        Tetrahedron3D.subdivideTetrahedron_induct (fun _ _ _ _ _ _ => True)
          (fun _ _ _ _ => trivial) (fun _ _ _ _ _ _ _ _ _ _ _ _ _ => trivial) d k a b c e
      rw [hl]
      rfl

end Subdivision2D

/-! ## Exact arithmetic: the shape of the leaves -/

namespace Subdivision2D

section Exact

variable {F : Type} [LinearOrderedField F]

/-- In a field the literal `2.0` is the number two. -/
theorem literal_two : (2.0 : F) = 2 := by norm_num

theorem midpoint_x (p q : Point2 F) : (midpoint p q).x = (p.x + q.x) / 2 := by
  simp only [midpoint, literal_two]

theorem midpoint_y (p q : Point2 F) : (midpoint p q).y = (p.y + q.y) / 2 := by
  simp only [midpoint, literal_two]

/-- Every leaf emitted at depth `d` is the input triangle scaled by `1 / 2^d` and
translated: its edge vectors from the first corner are those of the input over `2^d`. -/
theorem subdivideTriangle_shape (d k : Nat) (a b c : Point2 F) :
    ∃ l, subdivideTriangle (d + k) a b c (d : Int) = some l ∧
      ∀ t ∈ l,
        t.b.x - t.a.x = (b.x - a.x) / 2 ^ d ∧ t.b.y - t.a.y = (b.y - a.y) / 2 ^ d ∧
        t.c.x - t.a.x = (c.x - a.x) / 2 ^ d ∧ t.c.y - t.a.y = (c.y - a.y) / 2 ^ d := by
  refine subdivideTriangle_induct
    (fun d a b c l => ∀ t ∈ l,
        t.b.x - t.a.x = (b.x - a.x) / 2 ^ d ∧ t.b.y - t.a.y = (b.y - a.y) / 2 ^ d ∧
        t.c.x - t.a.x = (c.x - a.x) / 2 ^ d ∧ t.c.y - t.a.y = (c.y - a.y) / 2 ^ d)
    ?_ ?_ d k a b c
  · intro a b c t ht
    rw [List.mem_singleton] at ht
    subst ht
    simp [drawTriangle]
  · intro d a b c l1 l2 l3 h1 h2 h3 t ht
    have hpow : (2 : F) ^ (d + 1) = 2 ^ d * 2 := pow_succ 2 d
    have hw : (2 : F) ^ d ≠ 0 := pow_ne_zero d two_ne_zero
    rw [List.mem_append, List.mem_append] at ht
    rcases ht with (ht | ht) | ht
    · obtain ⟨e1, e2, e3, e4⟩ := h1 t ht
      rw [e1, e2, e3, e4, hpow]
      simp only [midpoint_x, midpoint_y]
      refine ⟨?_, ?_, ?_, ?_⟩ <;> field_simp <;> ring
    · obtain ⟨e1, e2, e3, e4⟩ := h2 t ht
      rw [e1, e2, e3, e4, hpow]
      simp only [midpoint_x, midpoint_y]
      refine ⟨?_, ?_, ?_, ?_⟩ <;> field_simp <;> ring
    · obtain ⟨e1, e2, e3, e4⟩ := h3 t ht
      rw [e1, e2, e3, e4, hpow]
      simp only [midpoint_x, midpoint_y]
      refine ⟨?_, ?_, ?_, ?_⟩ <;> field_simp <;> ring

/-- Two vectors with non-zero cross product are linearly independent. -/
theorem coefficients_zero (ux uy vx vy m n : F) (hD : ux * vy - uy * vx ≠ 0)
    (hx : m * ux + n * vx = 0) (hy : m * uy + n * vy = 0) : m = 0 ∧ n = 0 := by
  have hm : m * (ux * vy - uy * vx) = 0 := by linear_combination vy * hx - vx * hy
  have hn : n * (ux * vy - uy * vx) = 0 := by linear_combination ux * hy - uy * hx
  exact ⟨(mul_eq_zero.mp hm).resolve_right hD, (mul_eq_zero.mp hn).resolve_right hD⟩

/-- The three edge midpoints in the coordinates of the frame `(a; b - a, c - a)`:
`ab = (1/2, 0)`, `bc = (1/2, 1/2)`, `ca = (0, 1/2)`. -/
theorem midpoint_frame (a b c p : Point2 F)
    (hp : p = midpoint a b ∨ p = midpoint b c ∨ p = midpoint c a) :
    ∃ m n : F,
      p.x - a.x = m * (b.x - a.x) + n * (c.x - a.x) ∧
      p.y - a.y = m * (b.y - a.y) + n * (c.y - a.y) ∧
      ((m = 1 / 2 ∧ n = 0) ∨ (m = 1 / 2 ∧ n = 1 / 2) ∨ (m = 0 ∧ n = 1 / 2)) := by
  rcases hp with h | h | h
  · refine ⟨1 / 2, 0, ?_, ?_, Or.inl ⟨rfl, rfl⟩⟩ <;>
      simp only [h, midpoint_x, midpoint_y] <;> ring
  · refine ⟨1 / 2, 1 / 2, ?_, ?_, Or.inr (Or.inl ⟨rfl, rfl⟩)⟩ <;>
      simp only [h, midpoint_x, midpoint_y] <;> ring
  · refine ⟨0, 1 / 2, ?_, ?_, Or.inr (Or.inr ⟨rfl, rfl⟩)⟩ <;>
      simp only [h, midpoint_x, midpoint_y] <;> ring

/-- A positively scaled translate of a non-degenerate triangle `(a, b, c)`, corners in
the same order, does not have all three corners among the edge midpoints of
`(a, b, c)`. -/
theorem scaled_copy_not_central (a b c : Point2 F) (t : Triangle F) (w : F) (hw : 0 < w)
    (hD : nondegenerate a b c)
    (e1 : t.b.x - t.a.x = (b.x - a.x) / w) (e2 : t.b.y - t.a.y = (b.y - a.y) / w)
    (e3 : t.c.x - t.a.x = (c.x - a.x) / w) (e4 : t.c.y - t.a.y = (c.y - a.y) / w)
    (ha : t.a = midpoint a b ∨ t.a = midpoint b c ∨ t.a = midpoint c a)
    (hb : t.b = midpoint a b ∨ t.b = midpoint b c ∨ t.b = midpoint c a)
    (hc : t.c = midpoint a b ∨ t.c = midpoint b c ∨ t.c = midpoint c a) : False := by
  obtain ⟨m1, n1, px, py, hp⟩ := midpoint_frame a b c t.a ha
  obtain ⟨m2, n2, qx, qy, hq⟩ := midpoint_frame a b c t.b hb
  obtain ⟨m3, n3, rx, ry, hr⟩ := midpoint_frame a b c t.c hc
  have hD1 : (b.x - a.x) * (c.y - a.y) - (b.y - a.y) * (c.x - a.x) ≠ 0 := hD
  have hs : 0 < 1 / w := one_div_pos.mpr hw
  have hq1 := coefficients_zero (b.x - a.x) (b.y - a.y) (c.x - a.x) (c.y - a.y)
    (m2 - m1 - 1 / w) (n2 - n1) hD1
    (by rw [div_eq_mul_one_div] at e1; linear_combination px - qx + e1)
    (by rw [div_eq_mul_one_div] at e2; linear_combination py - qy + e2)
  have hr1 := coefficients_zero (b.x - a.x) (b.y - a.y) (c.x - a.x) (c.y - a.y)
    (m3 - m1) (n3 - n1 - 1 / w) hD1
    (by rw [div_eq_mul_one_div] at e3; linear_combination px - rx + e3)
    (by rw [div_eq_mul_one_div] at e4; linear_combination py - ry + e4)
  obtain ⟨hq2, hq3⟩ := hq1
  obtain ⟨hr2, hr3⟩ := hr1
  rcases hp with ⟨h1, h2⟩ | ⟨h1, h2⟩ | ⟨h1, h2⟩ <;>
    rcases hq with ⟨h3, h4⟩ | ⟨h3, h4⟩ | ⟨h3, h4⟩ <;>
    rcases hr with ⟨h5, h6⟩ | ⟨h5, h6⟩ | ⟨h5, h6⟩ <;>
    linarith

end Exact

end Subdivision2D

namespace Subdivision2D

/-- C5. In exact arithmetic, for every non-degenerate triangle `(a, b, c)` and every
depth `d` (in particular every `d ≥ 1`), `subdivideTriangle(a, b, c, d)` completes and
none of the leaves it emits has the three edge midpoints `ab`, `bc`, `ca` of the input
as its set of corners: the central subtriangle is never emitted. -/
theorem C5_central_triangle_not_emitted {F : Type} [LinearOrderedField F]
    (d k : Nat) (a b c : Point2 F) (h : nondegenerate a b c) :
    ∃ l, subdivideTriangle (d + k) a b c (d : Int) = some l ∧
      ∀ t ∈ l, ({t.a, t.b, t.c} : Set (Point2 F)) ≠
        {midpoint a b, midpoint b c, midpoint c a} := by
  obtain ⟨l, hl, shape⟩ := subdivideTriangle_shape d k a b c
  refine ⟨l, hl, ?_⟩
  intro t ht heq
  obtain ⟨e1, e2, e3, e4⟩ := shape t ht
  have ha : t.a ∈ ({midpoint a b, midpoint b c, midpoint c a} : Set (Point2 F)) := by
    rw [← heq]
    simp
  have hb : t.b ∈ ({midpoint a b, midpoint b c, midpoint c a} : Set (Point2 F)) := by
    rw [← heq]
    simp
  have hc : t.c ∈ ({midpoint a b, midpoint b c, midpoint c a} : Set (Point2 F)) := by
    rw [← heq]
    simp
  simp only [Set.mem_insert_iff, Set.mem_singleton_iff] at ha hb hc
  exact scaled_copy_not_central a b c t (2 ^ d) (pow_pos two_pos d) h e1 e2 e3 e4 ha hb hc

/-- The initial triangle of the program is non-degenerate, and at depth 2 none of its
nine leaves is the central subtriangle. -/
theorem C5_central_triangle_not_emitted_witness :
    nondegenerate (vertices 0 : Point2 ℚ) (vertices 1) (vertices 2) ∧
    ∃ l, subdivideTriangle (2 + 0) (vertices 0 : Point2 ℚ) (vertices 1) (vertices 2)
        ((2 : Nat) : Int) = some l ∧
      ∀ t ∈ l, ({t.a, t.b, t.c} : Set (Point2 ℚ)) ≠
        {midpoint (vertices 0) (vertices 1), midpoint (vertices 1) (vertices 2),
          midpoint (vertices 2) (vertices 0)} :=
  have hv : nondegenerate (vertices 0 : Point2 ℚ) (vertices 1) (vertices 2) := by
    simp only [nondegenerate, cross, vertices]
    norm_num
  ⟨hv, C5_central_triangle_not_emitted 2 0 (vertices 0) (vertices 1) (vertices 2) hv⟩

/-- C10. In exact arithmetic the size of every leaf is determined by the depth alone:
for every triangle `(a, b, c)` and every `d ≥ 0`, `subdivideTriangle(a, b, c, d)`
completes and every leaf `(p, q, r)` it emits satisfies `q - p = (b - a) / 2^d` and
`r - p = (c - a) / 2^d` coordinate by coordinate, that is `q = p + (b - a) / 2^d` and
`r = p + (c - a) / 2^d`: the leaf is a translate of the input scaled by `1 / 2^d`, with
the same corner order. -/
theorem C10_leaf_is_scaled_translate {F : Type} [LinearOrderedField F]
    (d k : Nat) (a b c : Point2 F) :
    ∃ l, subdivideTriangle (d + k) a b c (d : Int) = some l ∧
      ∀ t ∈ l,
        (t.b.x - t.a.x = (b.x - a.x) / 2 ^ d ∧ t.b.y - t.a.y = (b.y - a.y) / 2 ^ d ∧
         t.c.x - t.a.x = (c.x - a.x) / 2 ^ d ∧ t.c.y - t.a.y = (c.y - a.y) / 2 ^ d) ∧
        t = ⟨t.a,
             ⟨t.a.x + (b.x - a.x) / 2 ^ d, t.a.y + (b.y - a.y) / 2 ^ d⟩,
             ⟨t.a.x + (c.x - a.x) / 2 ^ d, t.a.y + (c.y - a.y) / 2 ^ d⟩⟩ := by
  obtain ⟨l, hl, shape⟩ := subdivideTriangle_shape d k a b c
  refine ⟨l, hl, fun t ht => ⟨shape t ht, ?_⟩⟩
  obtain ⟨e1, e2, e3, e4⟩ := shape t ht
  rw [← e1, ← e2, ← e3, ← e4]
  obtain ⟨⟨px, py⟩, ⟨qx, qy⟩, ⟨rx, ry⟩⟩ := t
  simp

end Subdivision2D

/-! ## The keyboard callbacks keep the depth within its range -/

namespace Subdivision2D

/-- One call of `keyboard` keeps `subdivisionDepth` within `[MIN_DEPTH, MAX_DEPTH]`. -/
theorem keyboard2_keeps_range (key : Nat) (x y : Int) (s s1 : State)
    (hs : 0 ≤ s.subdivisionDepth ∧ s.subdivisionDepth ≤ 8)
    (h : keyboard key x y s = some s1) :
    0 ≤ s1.subdivisionDepth ∧ s1.subdivisionDepth ≤ 8 := by
  unfold keyboard at h
  have h8 : MAX_DEPTH = 8 := rfl
  have h0 : MIN_DEPTH = 0 := rfl
  split at h
  · exact absurd h (by simp)
  all_goals (try split_ifs at h with hc)
  all_goals (simp only [Option.some.injEq] at h; subst h; (try dsimp only); omega)

/-- Every sequence of key presses keeps `subdivisionDepth` within the range. -/
theorem pressKeys_keeps_range (ks : List KeyPress) :
    ∀ (s s1 : State), 0 ≤ s.subdivisionDepth ∧ s.subdivisionDepth ≤ 8 →
      pressKeys s ks = some s1 → 0 ≤ s1.subdivisionDepth ∧ s1.subdivisionDepth ≤ 8 := by
  induction ks with
  | nil =>
    intro s s1 hs h
    simp only [pressKeys, Option.some.injEq] at h
    exact h ▸ hs
  | cons k ks ih =>
    intro s s1 hs h
    simp only [pressKeys] at h
    cases hk : keyboard k.key k.x k.y s with
    | none => simp [hk] at h
    | some s2 =>
      rw [hk] at h
      exact ih s2 s1 (keyboard2_keeps_range _ _ _ _ _ hs hk) h

/-- C8. In the 2D subdivision program, starting from the initial depth 5, after any
sequence of key presses handled by `keyboard` the value of `subdivisionDepth` is within
`[0, 8]`; `+` (or `=`) at 8 or above and `-` (or `_`) at 0 or below leave the state
unchanged; hence `display` completes within 8 nested calls and emits `3^depth` leaves,
never more than `3^8 = 6561`. -/
theorem C8_depth_stays_in_range_2d (F : Type) [Add F] [Div F] [Neg F] [OfScientific F]
    (ks : List KeyPress) (s : State) (h : pressKeys initial ks = some s) :
    (0 ≤ s.subdivisionDepth ∧ s.subdivisionDepth ≤ 8) ∧
    (∀ k : Nat, ∃ l : List (Triangle F), display (8 + k) s = some l ∧
      l.length = 3 ^ s.subdivisionDepth.toNat ∧ l.length ≤ 6561) ∧
    (∀ (t : State) (x y : Int), 8 ≤ t.subdivisionDepth →
      keyboard 43 x y t = some t ∧ keyboard 61 x y t = some t) ∧
    (∀ (t : State) (x y : Int), t.subdivisionDepth ≤ 0 →
      keyboard 45 x y t = some t ∧ keyboard 95 x y t = some t) := by
  have hr := pressKeys_keeps_range ks initial s (by simp [initial]) h
  refine ⟨hr, ?_, ?_, ?_⟩
  · intro k
    obtain ⟨n, hn⟩ := Int.eq_ofNat_of_zero_le hr.1
    have hn8 : n ≤ 8 := by omega
    obtain ⟨l, hl, hlen⟩ :=
      subdivideTriangle_induct (fun d _ _ _ (l : List (Triangle F)) => l.length = 3 ^ d)
        (fun _ _ _ => rfl)
        (fun d _ _ _ l1 l2 l3 h1 h2 h3 => by
          simp only [List.length_append, h1, h2, h3]
          ring)
        n (8 - n + k) (vertices 0) (vertices 1) (vertices 2)
    have hfuel : n + (8 - n + k) = 8 + k := by omega
    refine ⟨l, ?_, ?_, ?_⟩
    · rw [display, hn, ← hfuel]
      exact hl
    · rw [hn, Int.toNat_ofNat]
      exact hlen
    · rw [hlen]
      calc 3 ^ n ≤ 3 ^ 8 := Nat.pow_le_pow_right (by decide) hn8
        _ = 6561 := by norm_num
  · intro t x y ht
    have hnot : ¬ t.subdivisionDepth < 8 := by omega
    simp [keyboard, MAX_DEPTH, hnot]
  · intro t x y ht
    have hnot : ¬ t.subdivisionDepth > 0 := by omega
    simp [keyboard, MIN_DEPTH, hnot]

/-- Four presses of `+` or `=` from the initial state stop at depth 8. -/
theorem C8_depth_stays_in_range_2d_witness :
    pressKeys initial [⟨43, 0, 0⟩, ⟨61, 10, 20⟩, ⟨43, 0, 0⟩, ⟨43, 0, 0⟩] = some ⟨8, true⟩ ∧
    ((0 ≤ (⟨8, true⟩ : State).subdivisionDepth ∧ (⟨8, true⟩ : State).subdivisionDepth ≤ 8) ∧
    (∀ k : Nat, ∃ l : List (Triangle ℚ), display (8 + k) ⟨8, true⟩ = some l ∧
      l.length = 3 ^ (⟨8, true⟩ : State).subdivisionDepth.toNat ∧ l.length ≤ 6561) ∧
    (∀ (t : State) (x y : Int), 8 ≤ t.subdivisionDepth →
      keyboard 43 x y t = some t ∧ keyboard 61 x y t = some t) ∧
    (∀ (t : State) (x y : Int), t.subdivisionDepth ≤ 0 →
      keyboard 45 x y t = some t ∧ keyboard 95 x y t = some t)) :=
  ⟨by decide,
    C8_depth_stays_in_range_2d ℚ [⟨43, 0, 0⟩, ⟨61, 10, 20⟩, ⟨43, 0, 0⟩, ⟨43, 0, 0⟩] ⟨8, true⟩
      (by decide)⟩

end Subdivision2D

namespace Tetrahedron3D

/-- One call of `keyboard` keeps `subdivisionDepth` within `[MIN_DEPTH, MAX_DEPTH]`. -/
theorem keyboard3_keeps_range {F : Type} [OfScientific F] (key : Nat) (x y : Int)
    (s s1 : State F) (hs : 0 ≤ s.subdivisionDepth ∧ s.subdivisionDepth ≤ 6)
    (h : keyboard key x y s = some s1) :
    0 ≤ s1.subdivisionDepth ∧ s1.subdivisionDepth ≤ 6 := by
  unfold keyboard at h
  have h6 : MAX_DEPTH = 6 := rfl
  have h0 : MIN_DEPTH = 0 := rfl
  split at h
  · exact absurd h (by simp)
  all_goals (try split_ifs at h with hc)
  all_goals (simp only [Option.some.injEq] at h; subst h; (try dsimp only); omega)

section Range

variable {F : Type} [Add F] [Sub F] [OfScientific F]

/-- A call of `specialKeys` does not write `subdivisionDepth`. -/
theorem specialKeys_keeps_depth (key x y : Int) (s : State F) :
    (specialKeys key x y s).subdivisionDepth = s.subdivisionDepth := by
  unfold specialKeys
  split_ifs <;> rfl

/-- Every sequence of events keeps `subdivisionDepth` within the range. -/
theorem handleAll_keeps_range (es : List Event) :
    ∀ (s s1 : State F), 0 ≤ s.subdivisionDepth ∧ s.subdivisionDepth ≤ 6 →
      handleAll s es = some s1 → 0 ≤ s1.subdivisionDepth ∧ s1.subdivisionDepth ≤ 6 := by
  induction es with
  | nil =>
    intro s s1 hs h
    simp only [handleAll, Option.some.injEq] at h
    exact h ▸ hs
  | cons e es ih =>
    intro s s1 hs h
    simp only [handleAll] at h
    cases he : handle s e with
    | none => simp [he] at h
    | some s2 =>
      rw [he] at h
      refine ih s2 s1 ?_ h
      cases e with
      | keyboard key x y => exact keyboard3_keeps_range key x y s s2 hs he
      | specialKeys key x y =>
        simp only [handle, Option.some.injEq] at he
        rw [← he, specialKeys_keeps_depth]
        exact hs

end Range

/-- C9. In the 3D tetrahedron program, starting from the initial depth 4, after any
sequence of `keyboard` and `specialKeys` events the value of `subdivisionDepth` is
within `[0, 6]`; `+` (or `=`) below 6 raises it by exactly 1 and `-` (or `_`) above 0
lowers it by exactly 1, changing nothing else; at the bounds they leave the state
unchanged; so `display` completes within 6 nested calls and reaches `4^depth` base
cases, never more than `4^6 = 4096`. -/
theorem C9_depth_stays_in_range_3d (F : Type) [Add F] [Sub F] [Div F] [Neg F]
    [OfScientific F] (es : List Event) (s : State F)
    (h : handleAll initial es = some s) :
    (0 ≤ s.subdivisionDepth ∧ s.subdivisionDepth ≤ 6) ∧
    (∀ k : Nat, ∃ l : List (Leaf F), display (6 + k) s = some l ∧
      l.length = 4 ^ s.subdivisionDepth.toNat ∧ l.length ≤ 4096) ∧
    (∀ (t : State F) (x y : Int), t.subdivisionDepth < 6 →
      keyboard 43 x y t = some { t with subdivisionDepth := t.subdivisionDepth + 1 } ∧
      keyboard 61 x y t = some { t with subdivisionDepth := t.subdivisionDepth + 1 }) ∧
    (∀ (t : State F) (x y : Int), 0 < t.subdivisionDepth →
      keyboard 45 x y t = some { t with subdivisionDepth := t.subdivisionDepth - 1 } ∧
      keyboard 95 x y t = some { t with subdivisionDepth := t.subdivisionDepth - 1 }) ∧
    (∀ (t : State F) (x y : Int), 6 ≤ t.subdivisionDepth →
      keyboard 43 x y t = some t ∧ keyboard 61 x y t = some t) ∧
    (∀ (t : State F) (x y : Int), t.subdivisionDepth ≤ 0 →
      keyboard 45 x y t = some t ∧ keyboard 95 x y t = some t) := by
  have hr := handleAll_keeps_range es initial s (by simp [initial]) h
  refine ⟨hr, ?_, ?_, ?_, ?_, ?_⟩
  · intro k
    obtain ⟨n, hn⟩ := Int.eq_ofNat_of_zero_le hr.1
    have hn6 : n ≤ 6 := by omega
    obtain ⟨l, hl, hlen⟩ :=
      subdivideTetrahedron_induct (fun d _ _ _ _ (l : List (Leaf F)) => l.length = 4 ^ d)
        (fun _ _ _ _ => rfl)
        (fun d _ _ _ _ l1 l2 l3 l4 h1 h2 h3 h4 => by
          simp only [List.length_append, h1, h2, h3, h4]
          ring)
        n (6 - n + k) (vertices 0) (vertices 1) (vertices 2) (vertices 3)
    have hfuel : n + (6 - n + k) = 6 + k := by omega
    refine ⟨l, ?_, ?_, ?_⟩
    · rw [display, hn, ← hfuel]
      exact hl
    · rw [hn, Int.toNat_ofNat]
      exact hlen
    · rw [hlen]
      calc 4 ^ n ≤ 4 ^ 6 := Nat.pow_le_pow_right (by decide) hn6
        _ = 4096 := by norm_num
  · intro t x y ht
    simp [keyboard, MAX_DEPTH, ht]
  · intro t x y ht
    simp [keyboard, MIN_DEPTH, ht]
  · intro t x y ht
    have hnot : ¬ t.subdivisionDepth < 6 := by omega
    simp [keyboard, MAX_DEPTH, hnot]
  · intro t x y ht
    have hnot : ¬ t.subdivisionDepth > 0 := by omega
    simp [keyboard, MIN_DEPTH, hnot]

/-- Three presses of `+` or `=` with an arrow key in between, from the initial state,
stop at depth 6. -/
theorem C9_depth_stays_in_range_3d_witness :
    handleAll (initial : State ℚ)
        [Event.keyboard 43 0 0, Event.specialKeys 101 5 5, Event.keyboard 61 0 0,
          Event.keyboard 43 0 0] =
      some ⟨6, 30.0 + 5.0, 45.0, 0.0, false, false⟩ ∧
    ((0 ≤ (⟨6, 30.0 + 5.0, 45.0, 0.0, false, false⟩ : State ℚ).subdivisionDepth ∧
      (⟨6, 30.0 + 5.0, 45.0, 0.0, false, false⟩ : State ℚ).subdivisionDepth ≤ 6) ∧
    (∀ k : Nat, ∃ l : List (Leaf ℚ),
      display (6 + k) (⟨6, 30.0 + 5.0, 45.0, 0.0, false, false⟩ : State ℚ) = some l ∧
      l.length =
        4 ^ (⟨6, 30.0 + 5.0, 45.0, 0.0, false, false⟩ : State ℚ).subdivisionDepth.toNat ∧
      l.length ≤ 4096) ∧
    (∀ (t : State ℚ) (x y : Int), t.subdivisionDepth < 6 →
      keyboard 43 x y t = some { t with subdivisionDepth := t.subdivisionDepth + 1 } ∧
      keyboard 61 x y t = some { t with subdivisionDepth := t.subdivisionDepth + 1 }) ∧
    (∀ (t : State ℚ) (x y : Int), 0 < t.subdivisionDepth →
      keyboard 45 x y t = some { t with subdivisionDepth := t.subdivisionDepth - 1 } ∧
      keyboard 95 x y t = some { t with subdivisionDepth := t.subdivisionDepth - 1 }) ∧
    (∀ (t : State ℚ) (x y : Int), 6 ≤ t.subdivisionDepth →
      keyboard 43 x y t = some t ∧ keyboard 61 x y t = some t) ∧
    (∀ (t : State ℚ) (x y : Int), t.subdivisionDepth ≤ 0 →
      keyboard 45 x y t = some t ∧ keyboard 95 x y t = some t)) :=
  have hrun : handleAll (initial : State ℚ)
        [Event.keyboard 43 0 0, Event.specialKeys 101 5 5, Event.keyboard 61 0 0,
          Event.keyboard 43 0 0] =
      some ⟨6, 30.0 + 5.0, 45.0, 0.0, false, false⟩ := by
    simp [handleAll, handle, keyboard, specialKeys, initial, MAX_DEPTH, GLUT_KEY_UP]
  ⟨hrun, C9_depth_stays_in_range_3d ℚ
    [Event.keyboard 43 0 0, Event.specialKeys 101 5 5, Event.keyboard 61 0 0,
      Event.keyboard 43 0 0]
    ⟨6, 30.0 + 5.0, 45.0, 0.0, false, false⟩ hrun⟩

end Tetrahedron3D

/-! ## Re-subdivision at depth 0, and negative depths -/

namespace Subdivision2D

/-- Re-subdividing every triangle of a list at depth 0 gives the list back. -/
theorem subdivideEach_zero {F : Type} [Add F] [Div F] [OfScientific F] (fuel : Nat)
    (l : List (Triangle F)) : subdivideEach fuel 0 l = some l := by
  induction l with
  | nil => rfl
  | cons t ts ih =>
    simp only [subdivideEach, subdivideTriangle_zero, ih, drawTriangle]
    rfl

/-- C12. For every triangle and every `d ≥ 0`, whatever the arithmetic on coordinates,
the call at depth `d + 1` completes, and re-subdividing each of the leaves it emits at
depth 0 (with any bound on nested calls) yields exactly the same leaves in the same
order, hence the same set of leaves and the same leaf corners. -/
theorem C12_resubdividing_leaves_at_depth_zero {F : Type} [Add F] [Div F] [OfScientific F]
    (d k fuel : Nat) (a b c : Point2 F) :
    ∃ l, subdivideTriangle (d + 1 + k) a b c ((d + 1 : Nat) : Int) = some l ∧
      ∃ r, subdivideEach fuel 0 l = some r ∧ r = l ∧ (∀ t, t ∈ r ↔ t ∈ l) ∧
        cornersOf r = cornersOf l := by
  obtain ⟨l, hl, _⟩ :=
    subdivideTriangle_induct (fun _ _ _ _ _ => True) (fun _ _ _ => trivial)
      (fun _ _ _ _ _ _ _ _ _ _ => trivial) (d + 1) k a b c
  exact ⟨l, hl, l, subdivideEach_zero fuel l, rfl, fun _ => Iff.rfl, rfl⟩

/-- A call of `subdivideTriangle` with a negative depth never completes. -/
theorem subdivideTriangle_negative {F : Type} [Add F] [Div F] [OfScientific F]
    (fuel : Nat) : ∀ (depth : Int) (a b c : Point2 F), depth < 0 →
      subdivideTriangle fuel a b c depth = none := by
  induction fuel with
  | zero =>
    intro depth a b c h
    exact subdivideTriangle_no_fuel a b c depth (by omega)
  | succ n ih =>
    intro depth a b c h
    rw [subdivideTriangle_succ _ _ _ _ _ (by omega), ih (depth - 1) _ _ _ (by omega)]
    rfl

end Subdivision2D

namespace Tetrahedron3D

/-- A call of `subdivideTetrahedron` with a negative depth never completes. -/
theorem subdivideTetrahedron_negative {F : Type} [Add F] [Div F] [OfScientific F]
    (fuel : Nat) : ∀ (depth : Int) (a b c d : Point3 F), depth < 0 →
      subdivideTetrahedron fuel a b c d depth = none := by
  induction fuel with
  | zero =>
    intro depth a b c d h
    exact subdivideTetrahedron_no_fuel a b c d depth (by omega)
  | succ n ih =>
    intro depth a b c d h
    rw [subdivideTetrahedron_succ _ _ _ _ _ _ (by omega), ih (depth - 1) _ _ _ _ (by omega)]
    rfl

/-- C13. The subdividers do not validate the depth: for every negative depth, and
whatever the arithmetic on coordinates, neither `subdivideTriangle` nor
`subdivideTetrahedron` completes within any number of nested calls, so no leaf is
emitted; each call on a negative depth recurses on a depth that is again negative. -/
theorem C13_negative_depth_never_completes (F : Type) [Add F] [Div F] [OfScientific F]
    (depth : Int) (h : depth < 0) :
    (∀ (fuel : Nat) (a b c : Subdivision2D.Point2 F),
      Subdivision2D.subdivideTriangle fuel a b c depth = none) ∧
    (∀ (fuel : Nat) (a b c d : Point3 F),
      subdivideTetrahedron fuel a b c d depth = none) ∧
    depth ≠ 0 ∧ depth - 1 < 0 :=
  ⟨fun fuel a b c => Subdivision2D.subdivideTriangle_negative fuel depth a b c h,
   fun fuel a b c d => subdivideTetrahedron_negative fuel depth a b c d h,
   by omega, by omega⟩

/-- At depth `-1` no bound on nested calls lets either subdivider complete. -/
theorem C13_negative_depth_never_completes_witness :
    (-1 : Int) < 0 ∧
    (∀ (fuel : Nat) (a b c : Subdivision2D.Point2 ℚ),
      Subdivision2D.subdivideTriangle fuel a b c (-1) = none) ∧
    (∀ (fuel : Nat) (a b c d : Point3 ℚ),
      subdivideTetrahedron fuel a b c d (-1) = none) ∧
    (-1 : Int) ≠ 0 ∧ (-1 : Int) - 1 < 0 :=
  ⟨by decide, C13_negative_depth_never_completes ℚ (-1) (by decide)⟩

end Tetrahedron3D

/-! ## The other keys -/

namespace Subdivision2D

/-- C14. In the 2D subdivision program, pressing `R` (either case) from any state
sets `subdivisionDepth` to 5 and `fillMode` to true, whatever their previous values;
pressing `R` twice gives the same state as pressing it once. -/
theorem C14_reset_2d (s : State) (x y x1 y1 : Int) :
    keyboard 114 x y s = some ⟨5, true⟩ ∧
    keyboard 82 x y s = some ⟨5, true⟩ ∧
    pressKeys s [⟨114, x, y⟩, ⟨114, x1, y1⟩] = pressKeys s [⟨114, x, y⟩] ∧
    pressKeys s [⟨82, x, y⟩, ⟨82, x1, y1⟩] = pressKeys s [⟨82, x, y⟩] ∧
    pressKeys s [⟨114, x, y⟩, ⟨82, x1, y1⟩] = pressKeys s [⟨114, x, y⟩] ∧
    pressKeys s [⟨82, x, y⟩, ⟨114, x1, y1⟩] = pressKeys s [⟨82, x, y⟩] ∧
    pressKeys s [⟨114, x, y⟩] = some ⟨5, true⟩ := by
  have hr : ∀ (t : State) (u v : Int), keyboard 114 u v t = some ⟨5, true⟩ := by
    intro t u v
    rfl
  have hR : ∀ (t : State) (u v : Int), keyboard 82 u v t = some ⟨5, true⟩ := by
    intro t u v
    rfl
  refine ⟨hr s x y, hR s x y, ?_, ?_, ?_, ?_, ?_⟩ <;> simp [pressKeys, hr, hR]

end Subdivision2D

namespace Tetrahedron3D

/-- C15. In the 3D tetrahedron program, pressing `R` (either case) from any state sets
the rotation to `(30.0, 45.0, 0.0)` and `animating` to false, and leaves
`subdivisionDepth` and `wireframeMode` unchanged; in exact arithmetic the three angles
are the numbers 30, 45 and 0. -/
theorem C15_reset_3d :
    (∀ (F : Type) [OfScientific F] (s : State F) (x y : Int),
      keyboard 114 x y s =
        some ⟨s.subdivisionDepth, 30.0, 45.0, 0.0, false, s.wireframeMode⟩ ∧
      keyboard 82 x y s =
        some ⟨s.subdivisionDepth, 30.0, 45.0, 0.0, false, s.wireframeMode⟩) ∧
    (∀ (s : State ℚ) (x y : Int),
      keyboard 114 x y s = some ⟨s.subdivisionDepth, 30, 45, 0, false, s.wireframeMode⟩ ∧
      keyboard 82 x y s = some ⟨s.subdivisionDepth, 30, 45, 0, false, s.wireframeMode⟩) := by
  have general : ∀ (F : Type) [OfScientific F] (s : State F) (x y : Int),
      keyboard 114 x y s =
        some ⟨s.subdivisionDepth, 30.0, 45.0, 0.0, false, s.wireframeMode⟩ ∧
      keyboard 82 x y s =
        some ⟨s.subdivisionDepth, 30.0, 45.0, 0.0, false, s.wireframeMode⟩ := by
    intro F _ s x y
    exact ⟨rfl, rfl⟩
  refine ⟨general, fun s x y => ?_⟩
  obtain ⟨h1, h2⟩ := general ℚ s x y
  rw [h1, h2]
  norm_num

/-- C16. In the 3D tetrahedron program, pressing `W` (either case) flips
`wireframeMode` and pressing SPACE flips `animating`, each leaving every other global
unchanged; so `W` and SPACE commute, and each pressed twice restores the state. -/
theorem C16_wireframe_independent_of_space {F : Type} [Add F] [Sub F] [OfScientific F]
    (s : State F) (x y x1 y1 : Int) :
    keyboard 119 x y s = some ⟨s.subdivisionDepth, s.rotationX, s.rotationY, s.rotationZ,
      s.animating, !s.wireframeMode⟩ ∧
    keyboard 87 x y s = some ⟨s.subdivisionDepth, s.rotationX, s.rotationY, s.rotationZ,
      s.animating, !s.wireframeMode⟩ ∧
    keyboard 32 x y s = some ⟨s.subdivisionDepth, s.rotationX, s.rotationY, s.rotationZ,
      !s.animating, s.wireframeMode⟩ ∧
    handleAll s [Event.keyboard 119 x y, Event.keyboard 32 x1 y1] =
      handleAll s [Event.keyboard 32 x1 y1, Event.keyboard 119 x y] ∧
    handleAll s [Event.keyboard 87 x y, Event.keyboard 32 x1 y1] =
      handleAll s [Event.keyboard 32 x1 y1, Event.keyboard 87 x y] ∧
    handleAll s [Event.keyboard 119 x y, Event.keyboard 32 x1 y1] =
      some ⟨s.subdivisionDepth, s.rotationX, s.rotationY, s.rotationZ,
        !s.animating, !s.wireframeMode⟩ ∧
    handleAll s [Event.keyboard 119 x y, Event.keyboard 119 x1 y1] = some s ∧
    handleAll s [Event.keyboard 87 x y, Event.keyboard 87 x1 y1] = some s ∧
    handleAll s [Event.keyboard 119 x y, Event.keyboard 87 x1 y1] = some s ∧
    handleAll s [Event.keyboard 32 x y, Event.keyboard 32 x1 y1] = some s := by
  have hw : ∀ (t : State F) (u v : Int), keyboard 119 u v t =
      some ⟨t.subdivisionDepth, t.rotationX, t.rotationY, t.rotationZ, t.animating,
        !t.wireframeMode⟩ := fun _ _ _ => rfl
  have hW : ∀ (t : State F) (u v : Int), keyboard 87 u v t =
      some ⟨t.subdivisionDepth, t.rotationX, t.rotationY, t.rotationZ, t.animating,
        !t.wireframeMode⟩ := fun _ _ _ => rfl
  have hsp : ∀ (t : State F) (u v : Int), keyboard 32 u v t =
      some ⟨t.subdivisionDepth, t.rotationX, t.rotationY, t.rotationZ, !t.animating,
        t.wireframeMode⟩ := fun _ _ _ => rfl
  refine ⟨hw s x y, hW s x y, hsp s x y, ?_, ?_, ?_, ?_, ?_, ?_, ?_⟩ <;>
    simp [handleAll, handle, hw, hW, hsp]

/-- C17. In the 3D tetrahedron program each arrow key changes exactly one rotation
angle by `5.0`: UP adds it to `rotationX`, DOWN subtracts it from `rotationX`, RIGHT adds
it to `rotationY`, LEFT subtracts it from `rotationY`; every other global is unchanged;
and in exact arithmetic UP followed by DOWN, or LEFT followed by RIGHT, in either order,
restores the state. -/
theorem C17_arrow_keys :
    (∀ (F : Type) [Add F] [Sub F] [OfScientific F] (s : State F) (x y : Int),
      specialKeys GLUT_KEY_UP x y s = ⟨s.subdivisionDepth, s.rotationX + 5.0, s.rotationY,
        s.rotationZ, s.animating, s.wireframeMode⟩ ∧
      specialKeys GLUT_KEY_DOWN x y s = ⟨s.subdivisionDepth, s.rotationX - 5.0,
        s.rotationY, s.rotationZ, s.animating, s.wireframeMode⟩ ∧
      specialKeys GLUT_KEY_RIGHT x y s = ⟨s.subdivisionDepth, s.rotationX,
        s.rotationY + 5.0, s.rotationZ, s.animating, s.wireframeMode⟩ ∧
      specialKeys GLUT_KEY_LEFT x y s = ⟨s.subdivisionDepth, s.rotationX,
        s.rotationY - 5.0, s.rotationZ, s.animating, s.wireframeMode⟩) ∧
    (∀ (F : Type) [LinearOrderedField F] (s : State F) (x y x1 y1 : Int),
      (5.0 : F) = 5 ∧
      specialKeys GLUT_KEY_DOWN x1 y1 (specialKeys GLUT_KEY_UP x y s) = s ∧
      specialKeys GLUT_KEY_UP x1 y1 (specialKeys GLUT_KEY_DOWN x y s) = s ∧
      specialKeys GLUT_KEY_RIGHT x1 y1 (specialKeys GLUT_KEY_LEFT x y s) = s ∧
      specialKeys GLUT_KEY_LEFT x1 y1 (specialKeys GLUT_KEY_RIGHT x y s) = s) := by
  have general : ∀ (F : Type) [Add F] [Sub F] [OfScientific F] (s : State F) (x y : Int),
      specialKeys GLUT_KEY_UP x y s = ⟨s.subdivisionDepth, s.rotationX + 5.0, s.rotationY,
        s.rotationZ, s.animating, s.wireframeMode⟩ ∧
      specialKeys GLUT_KEY_DOWN x y s = ⟨s.subdivisionDepth, s.rotationX - 5.0,
        s.rotationY, s.rotationZ, s.animating, s.wireframeMode⟩ ∧
      specialKeys GLUT_KEY_RIGHT x y s = ⟨s.subdivisionDepth, s.rotationX,
        s.rotationY + 5.0, s.rotationZ, s.animating, s.wireframeMode⟩ ∧
      specialKeys GLUT_KEY_LEFT x y s = ⟨s.subdivisionDepth, s.rotationX,
        s.rotationY - 5.0, s.rotationZ, s.animating, s.wireframeMode⟩ := by
    intro F _ _ _ s x y
    refine ⟨?_, ?_, ?_, ?_⟩ <;>
      simp [specialKeys, GLUT_KEY_UP, GLUT_KEY_DOWN, GLUT_KEY_LEFT, GLUT_KEY_RIGHT]
  refine ⟨general, fun F _ s x y x1 y1 => ⟨by norm_num, ?_, ?_, ?_, ?_⟩⟩
  · obtain ⟨hu, hd, -, -⟩ := general F s x y
    obtain ⟨-, hd1, -, -⟩ := general F (specialKeys GLUT_KEY_UP x y s) x1 y1
    rw [hd1, hu]
    cases s
    simp
  · obtain ⟨hu, hd, -, -⟩ := general F s x y
    obtain ⟨hu1, -, -, -⟩ := general F (specialKeys GLUT_KEY_DOWN x y s) x1 y1
    rw [hu1, hd]
    cases s
    simp
  · obtain ⟨-, -, -, hl⟩ := general F s x y
    obtain ⟨-, -, hr1, -⟩ := general F (specialKeys GLUT_KEY_LEFT x y s) x1 y1
    rw [hr1, hl]
    cases s
    simp
  · obtain ⟨-, -, hr, -⟩ := general F s x y
    obtain ⟨-, -, -, hl1⟩ := general F (specialKeys GLUT_KEY_RIGHT x y s) x1 y1
    rw [hl1, hr]
    cases s
    simp

end Tetrahedron3D

/-! ## The turtle moves forward -/

namespace TurtleOpenGL

/-- C19. `TurtleMoveForward(distance)` moves the turtle in its current direction and
draws only when the pen is down: whatever the arithmetic on `float`, from position
`(x, y)` with heading `angleDeg` the new position is
`(x + distance * cos(angleDeg * PI / 180.0), y + distance * sin(angleDeg * PI / 180.0))`;
exactly one line from the old to the new position, in the current colour, is drawn when
`penDown` is true and none when it is false; heading, pen state and colour are
unchanged.  `TurtlePenUp` and `TurtlePenDown` set the pen state and nothing else. -/
theorem C19_move_forward {F : Type} [Add F] [Mul F] [Div F] [OfScientific F]
    (cos sin : F → F) (distance : F) (t : Turtle F) :
    (TurtleMoveForward cos sin distance t).1 =
      ⟨t.x + distance * cos (t.angleDeg * 3.14159265358979323846 / 180.0),
       t.y + distance * sin (t.angleDeg * 3.14159265358979323846 / 180.0),
       t.angleDeg, t.penDown, t.r, t.g, t.b⟩ ∧
    (t.penDown = true →
      (TurtleMoveForward cos sin distance t).2 =
        [⟨t.r, t.g, t.b, t.x, t.y,
          t.x + distance * cos (t.angleDeg * 3.14159265358979323846 / 180.0),
          t.y + distance * sin (t.angleDeg * 3.14159265358979323846 / 180.0)⟩]) ∧
    (t.penDown = false → (TurtleMoveForward cos sin distance t).2 = []) ∧
    TurtlePenUp t = ⟨t.x, t.y, t.angleDeg, false, t.r, t.g, t.b⟩ ∧
    TurtlePenDown t = ⟨t.x, t.y, t.angleDeg, true, t.r, t.g, t.b⟩ ∧
    (TurtleMoveForward cos sin distance (TurtlePenUp t)).2 = [] ∧
    (TurtleMoveForward cos sin distance (TurtlePenDown t)).2.length = 1 := by
  refine ⟨rfl, ?_, ?_, rfl, rfl, rfl, rfl⟩
  · intro h
    simp only [TurtleMoveForward, h, if_true, PI]
  · intro h
    simp [TurtleMoveForward, h]

end TurtleOpenGL

/-! ## The faces drawn in the base case -/

namespace Tetrahedron3D

/-- C20. At depth 0, whatever the arithmetic on coordinates, `subdivideTetrahedron`
draws exactly the four triangular faces `(a, b, c)`, `(a, c, d)`, `(a, d, b)`,
`(b, d, c)`, in that order (red, green, blue, yellow).  The twelve directed edges along
which the four faces are traversed are each of the six edges once in each direction, and
the twelve corners drawn are each corner three times; when the four corners are
distinct points, each ordered pair of corners is traversed exactly once and every corner
is a corner of exactly three faces. -/
theorem C20_base_case_faces {F : Type} [Add F] [Div F] [OfScientific F] [DecidableEq F]
    (fuel : Nat) (a b c d : Point3 F) :
    ∃ leaf : Leaf F,
      subdivideTetrahedron fuel a b c d 0 = some [leaf] ∧
      leaf.draws = [⟨a, b, c, 1.0, 0.0, 0.0⟩, ⟨a, c, d, 0.0, 1.0, 0.0⟩,
                    ⟨a, d, b, 0.0, 0.0, 1.0⟩, ⟨b, d, c, 1.0, 1.0, 0.0⟩] ∧
      leaf.draws.map (fun t => (t.a, t.b, t.c)) =
        [(a, b, c), (a, c, d), (a, d, b), (b, d, c)] ∧
      (leaf.draws.flatMap directedEdges).Perm
        [(a, b), (b, a), (a, c), (c, a), (a, d), (d, a),
         (b, c), (c, b), (b, d), (d, b), (c, d), (d, c)] ∧
      (leaf.draws.flatMap fun t => [t.a, t.b, t.c]).Perm
        [a, a, a, b, b, b, c, c, c, d, d, d] ∧
      (a ≠ b → a ≠ c → a ≠ d → b ≠ c → b ≠ d → c ≠ d →
        (∀ p ∈ [a, b, c, d], ∀ q ∈ [a, b, c, d], p ≠ q →
          (leaf.draws.flatMap directedEdges).count (p, q) = 1) ∧
        (∀ p ∈ [a, b, c, d], leaf.draws.countP (hasCorner p) = 3)) := by
  refine ⟨baseCase a b c d, subdivideTetrahedron_zero fuel a b c d, rfl, rfl, ?_, ?_, ?_⟩
  · have hp : ([((0 : Fin 4), (1 : Fin 4)), (1, 2), (2, 0), (0, 2), (2, 3), (3, 0),
        (0, 3), (3, 1), (1, 0), (1, 3), (3, 2), (2, 1)] : List (Fin 4 × Fin 4)).Perm
        [(0, 1), (1, 0), (0, 2), (2, 0), (0, 3), (3, 0),
         (1, 2), (2, 1), (1, 3), (3, 1), (2, 3), (3, 2)] := by decide
    have hm := hp.map (fun e : Fin 4 × Fin 4 => ((![a, b, c, d] e.1, ![a, b, c, d] e.2)))
    simpa [baseCase, drawTriangle, directedEdges] using hm
  · have hp : ([(0 : Fin 4), 1, 2, 0, 2, 3, 0, 3, 1, 1, 3, 2] : List (Fin 4)).Perm
        [0, 0, 0, 1, 1, 1, 2, 2, 2, 3, 3, 3] := by decide
    have hm := hp.map ![a, b, c, d]
    simpa [baseCase, drawTriangle] using hm
  · intro hab hac had hbc hbd hcd
    have hba := hab.symm
    have hca := hac.symm
    have hda := had.symm
    have hcb := hbc.symm
    have hdb := hbd.symm
    have hdc := hcd.symm
    constructor
    · intro p hp q hq hpq
      simp only [List.mem_cons, List.mem_singleton, List.not_mem_nil, or_false] at hp hq
      rcases hp with rfl | rfl | rfl | rfl <;> rcases hq with rfl | rfl | rfl | rfl <;>
        first
        | exact absurd rfl hpq
        | simp [baseCase, drawTriangle, directedEdges, List.count_cons, *]
    · intro p hp
      simp only [List.mem_cons, List.mem_singleton, List.not_mem_nil, or_false] at hp
      rcases hp with rfl | rfl | rfl | rfl <;>
        simp [baseCase, drawTriangle, hasCorner, List.countP_cons, *]

/-- The initial tetrahedron of the program has four distinct corners, so each ordered
pair of its corners is traversed exactly once by the four faces drawn at depth 0. -/
theorem C20_base_case_faces_witness :
    ((vertices 0 : Point3 ℚ) ≠ vertices 1 ∧ (vertices 0 : Point3 ℚ) ≠ vertices 2 ∧
     (vertices 0 : Point3 ℚ) ≠ vertices 3 ∧ (vertices 1 : Point3 ℚ) ≠ vertices 2 ∧
     (vertices 1 : Point3 ℚ) ≠ vertices 3 ∧ (vertices 2 : Point3 ℚ) ≠ vertices 3) ∧
    ∃ leaf : Leaf ℚ,
      subdivideTetrahedron 0 (vertices 0) (vertices 1) (vertices 2) (vertices 3) 0 =
        some [leaf] ∧
      (∀ p ∈ [(vertices 0 : Point3 ℚ), vertices 1, vertices 2, vertices 3],
        ∀ q ∈ [(vertices 0 : Point3 ℚ), vertices 1, vertices 2, vertices 3], p ≠ q →
          (leaf.draws.flatMap directedEdges).count (p, q) = 1) ∧
      (∀ p ∈ [(vertices 0 : Point3 ℚ), vertices 1, vertices 2, vertices 3],
        leaf.draws.countP (hasCorner p) = 3) :=
  have h01 : (vertices 0 : Point3 ℚ) ≠ vertices 1 := by
    simp only [vertices, ne_eq, Point3.mk.injEq]; norm_num
  have h02 : (vertices 0 : Point3 ℚ) ≠ vertices 2 := by
    simp only [vertices, ne_eq, Point3.mk.injEq]; norm_num
  have h03 : (vertices 0 : Point3 ℚ) ≠ vertices 3 := by
    simp only [vertices, ne_eq, Point3.mk.injEq]; norm_num
  have h12 : (vertices 1 : Point3 ℚ) ≠ vertices 2 := by
    simp only [vertices, ne_eq, Point3.mk.injEq]; norm_num
  have h13 : (vertices 1 : Point3 ℚ) ≠ vertices 3 := by
    simp only [vertices, ne_eq, Point3.mk.injEq]; norm_num
  have h23 : (vertices 2 : Point3 ℚ) ≠ vertices 3 := by
    simp only [vertices, ne_eq, Point3.mk.injEq]; norm_num
  ⟨⟨h01, h02, h03, h12, h13, h23⟩,
    match C20_base_case_faces 0 (vertices 0 : Point3 ℚ) (vertices 1) (vertices 2)
        (vertices 3) with
    | ⟨leaf, hleaf, _, _, _, _, hdist⟩ =>
      ⟨leaf, hleaf, (hdist h01 h02 h03 h12 h13 h23).1, (hdist h01 h02 h03 h12 h13 h23).2⟩⟩

end Tetrahedron3D


/-! ## The heading of the turtle -/

namespace Exact

theorem fmod_eq (x y : ℚ) : ∃ n : ℤ, fmod x y = x - n * y := ⟨trunc (x / y), rfl⟩

/-- The exact remainder has the sign of `x` and is smaller than 360 in magnitude. -/
theorem fmod_range (x : ℚ) :
    (0 ≤ x → 0 ≤ fmod x 360 ∧ fmod x 360 < 360) ∧
    (x < 0 → -360 < fmod x 360 ∧ fmod x 360 ≤ 0) := by
  constructor
  · intro hx
    have hq : (0 : ℚ) ≤ x / 360 := div_nonneg hx (by norm_num)
    have h1 := Int.floor_le (x / 360)
    have h2 := Int.lt_floor_add_one (x / 360)
    simp only [fmod, trunc, hq, if_true]
    constructor
    · have : (⌊x / 360⌋ : ℚ) * 360 ≤ x := by
        have := mul_le_mul_of_nonneg_right h1 (show (0 : ℚ) ≤ 360 by norm_num)
        rwa [div_mul_cancel₀ x (show (360 : ℚ) ≠ 0 by norm_num)] at this
      linarith
    · have : x < ((⌊x / 360⌋ : ℚ) + 1) * 360 := by
        have := mul_lt_mul_of_pos_right h2 (show (0 : ℚ) < 360 by norm_num)
        rwa [div_mul_cancel₀ x (show (360 : ℚ) ≠ 0 by norm_num)] at this
      linarith
  · intro hx
    have hq : ¬ (0 : ℚ) ≤ x / 360 := not_le.mpr (div_neg_of_neg_of_pos hx (by norm_num))
    have h1 := Int.le_ceil (x / 360)
    have h2 := Int.ceil_lt_add_one (x / 360)
    simp only [fmod, trunc, hq, if_false]
    constructor
    · have : ((⌈x / 360⌉ : ℚ)) * 360 < (x / 360 + 1) * 360 :=
        mul_lt_mul_of_pos_right h2 (by norm_num)
      rw [add_mul, div_mul_cancel₀ x (show (360 : ℚ) ≠ 0 by norm_num)] at this
      linarith
    · have : x ≤ (⌈x / 360⌉ : ℚ) * 360 := by
        have := mul_le_mul_of_nonneg_right h1 (show (0 : ℚ) ≤ 360 by norm_num)
        rwa [div_mul_cancel₀ x (show (360 : ℚ) ≠ 0 by norm_num)] at this
      linarith

end Exact

namespace TurtleOpenGL

/-- In exact arithmetic the normalisation of the heading does what its comment says:
after `TurtleRotateLeft` or `TurtleRotateRight` the heading is in `[0, 360)` and differs
from the old heading plus (minus) the angle by a multiple of 360. -/
theorem rotate_exact (angle : ℚ) (t : Turtle ℚ) :
    (0 ≤ (TurtleRotateLeft Exact.fmod angle t).angleDeg ∧
      (TurtleRotateLeft Exact.fmod angle t).angleDeg < 360 ∧
      ∃ n : ℤ, (TurtleRotateLeft Exact.fmod angle t).angleDeg =
        t.angleDeg + angle + n * 360) ∧
    (0 ≤ (TurtleRotateRight Exact.fmod angle t).angleDeg ∧
      (TurtleRotateRight Exact.fmod angle t).angleDeg < 360 ∧
      ∃ n : ℤ, (TurtleRotateRight Exact.fmod angle t).angleDeg =
        t.angleDeg - angle + n * 360) := by
  have key : ∀ x : ℚ,
      let r := if Exact.fmod x 360 < 0 then Exact.fmod x 360 + 360 else Exact.fmod x 360
      0 ≤ r ∧ r < 360 ∧ ∃ n : ℤ, r = x + n * 360 := by
    intro x
    obtain ⟨m, hm⟩ := Exact.fmod_eq x 360
    obtain ⟨hpos, hneg⟩ := Exact.fmod_range x
    by_cases hx : 0 ≤ x
    · obtain ⟨h1, h2⟩ := hpos hx
      simp only [not_lt.mpr h1, if_false]
      exact ⟨h1, h2, -m, by rw [hm]; push_cast; ring⟩
    · obtain ⟨h1, h2⟩ := hneg (not_le.mp hx)
      by_cases hr : Exact.fmod x 360 < 0
      · simp only [hr, if_true]
        exact ⟨by linarith, by linarith, -m + 1, by rw [hm]; push_cast; ring⟩
      · simp only [hr, if_false]
        exact ⟨not_lt.mp hr, by linarith, -m, by rw [hm]; push_cast; ring⟩
  have h360 : (360.0 : ℚ) = 360 := by norm_num
  have h0 : (0.0 : ℚ) = 0 := by norm_num
  constructor
  · have := key (t.angleDeg + angle)
    simp only [TurtleRotateLeft, h360, h0]
    split_ifs with h
    · simpa [h] using this
    · simpa [h] using this
  · have := key (t.angleDeg - angle)
    simp only [TurtleRotateRight, h360, h0]
    split_ifs with h
    · simpa [h] using this
    · simpa [h] using this

end TurtleOpenGL

namespace Binary32

/-- The exponent of a non-zero rational, from the two powers of two around it. -/
theorem log_eq (x : ℚ) (e : ℤ) (h1 : (2 : ℚ) ^ e ≤ |x|) (h2 : |x| < (2 : ℚ) ^ (e + 1)) :
    Int.log 2 |x| = e := by
  have hpos : 0 < |x| := lt_of_lt_of_le (zpow_pos (by norm_num) e) h1
  apply le_antisymm
  · have h := (Int.lt_zpow_iff_log_lt (b := 2) (by norm_num) hpos).mp (by exact_mod_cast h2)
    omega
  · exact (Int.zpow_le_iff_le_log (b := 2) (by norm_num) hpos).mp (by exact_mod_cast h1)

theorem roundHalfEven_intCast (n : ℤ) : roundHalfEven (n : ℚ) = n := by
  simp [roundHalfEven]

/-- A rational that is an integer multiple of its own spacing is a binary32 number:
rounding leaves it unchanged. -/
theorem round_of_multiple (x : ℚ) (e n : ℤ) (he : -126 ≤ e)
    (h1 : (2 : ℚ) ^ e ≤ |x|) (h2 : |x| < (2 : ℚ) ^ (e + 1))
    (hn : x = (n : ℚ) * (2 : ℚ) ^ (e - 23)) : round x = x := by
  have hq : quantum x = (2 : ℚ) ^ (e - 23) := by
    unfold quantum
    rw [log_eq x e h1 h2, max_eq_left he]
  have hne : (2 : ℚ) ^ (e - 23) ≠ 0 := zpow_ne_zero _ (by norm_num)
  unfold round
  rw [hq]
  have hdiv : x / (2 : ℚ) ^ (e - 23) = (n : ℚ) := by
    rw [hn, mul_div_assoc, div_self hne, mul_one]
  rw [hdiv, roundHalfEven_intCast, ← hn]

theorem round_zero : round 0 = 0 := by
  simp [round, roundHalfEven]

theorem round_360 : round 360 = 360 :=
  round_of_multiple 360 8 11796480 (by decide) (by norm_num) (by norm_num) (by norm_num)

theorem round_neg_small : round (-(1 / 2 ^ 20)) = -(1 / 2 ^ 20) :=
  round_of_multiple (-(1 / 2 ^ 20)) (-20) (-8388608) (by decide)
    (by rw [abs_neg, abs_of_pos (by norm_num)]; norm_num)
    (by rw [abs_neg, abs_of_pos (by norm_num)]; norm_num) (by norm_num)

theorem round_small : round (1 / 2 ^ 20) = 1 / 2 ^ 20 :=
  round_of_multiple (1 / 2 ^ 20) (-20) 8388608 (by decide)
    (by rw [abs_of_pos (by norm_num)]; norm_num)
    (by rw [abs_of_pos (by norm_num)]; norm_num) (by norm_num)

/-- Just below 360 the binary32 numbers are `2 ^ (-15)` apart, so `360 - 2 ^ (-20)`
rounds up to 360. -/
theorem round_below_360 : round (360 - 1 / 2 ^ 20) = 360 := by
  have hx : |(360 - 1 / 2 ^ 20 : ℚ)| = 360 - 1 / 2 ^ 20 := abs_of_pos (by norm_num)
  have hl : Int.log 2 |(360 - 1 / 2 ^ 20 : ℚ)| = 8 := by
    apply log_eq
    · rw [hx]
      norm_num
    · rw [hx]
      norm_num
  have hq : quantum (360 - 1 / 2 ^ 20) = 1 / 2 ^ 15 := by
    unfold quantum
    rw [hl]
    norm_num
  unfold round
  rw [hq]
  have hf : ⌊((360 - 1 / 2 ^ 20 : ℚ) / (1 / 2 ^ 15))⌋ = 11796479 := by
    rw [Int.floor_eq_iff]
    norm_num
  unfold roundHalfEven
  rw [hf]
  norm_num

theorem literal_360 : (360.0 : Binary32) = ⟨360⟩ := by
  show (⟨round (360.0 : ℚ)⟩ : Binary32) = ⟨360⟩
  rw [show (360.0 : ℚ) = 360 by norm_num, round_360]

theorem literal_zero : (0.0 : Binary32) = ⟨0⟩ := by
  show (⟨round (0.0 : ℚ)⟩ : Binary32) = ⟨0⟩
  rw [show (0.0 : ℚ) = 0 by norm_num, round_zero]

theorem fmod_small : Exact.fmod (-(1 / 2 ^ 20)) 360 = -(1 / 2 ^ 20) := by
  have hc : ⌈(-(1 / 2 ^ 20) / 360 : ℚ)⌉ = 0 := by
    rw [Int.ceil_eq_iff]
    norm_num
  have hneg : ¬ (0 : ℚ) ≤ -(1 / 2 ^ 20) / 360 := by norm_num
  simp only [Exact.fmod, Exact.trunc, hneg, if_false, hc]
  norm_num

end Binary32

namespace TurtleOpenGL

/-- C18. The code does not keep the heading in `[0, 360)`: in binary32 arithmetic, from
the heading 0 the call `TurtleRotateRight(2^-20)` (as `TurtleRotateLeft(-2^-20)`) leaves
the heading at exactly 360.  The difference `0 - 2^-20` is a small negative number,
`std::fmod` returns it unchanged, and adding `360.0f` rounds to `360.0f`. -/
theorem C18_heading_rounds_to_360 :
    Binary32.round 0 = 0 ∧ Binary32.round (1 / 2 ^ 20) = 1 / 2 ^ 20 ∧
    (TurtleRotateRight Binary32.fmod ⟨1 / 2 ^ 20⟩
      ⟨⟨0⟩, ⟨0⟩, ⟨0⟩, true, ⟨1⟩, ⟨1⟩, ⟨1⟩⟩).angleDeg = ⟨360⟩ ∧
    (TurtleRotateLeft Binary32.fmod ⟨-(1 / 2 ^ 20)⟩
      ⟨⟨0⟩, ⟨0⟩, ⟨0⟩, true, ⟨1⟩, ⟨1⟩, ⟨1⟩⟩).angleDeg = ⟨360⟩ ∧
    ¬ ((TurtleRotateRight Binary32.fmod ⟨1 / 2 ^ 20⟩
      ⟨⟨0⟩, ⟨0⟩, ⟨0⟩, true, ⟨1⟩, ⟨1⟩, ⟨1⟩⟩).angleDeg < 360.0) := by
  have hsub : (⟨0⟩ : Binary32) - ⟨1 / 2 ^ 20⟩ = ⟨-(1 / 2 ^ 20)⟩ := by
    show (⟨Binary32.round (0 - 1 / 2 ^ 20)⟩ : Binary32) = _
    rw [zero_sub, Binary32.round_neg_small]
  have hadd : (⟨0⟩ : Binary32) + ⟨-(1 / 2 ^ 20)⟩ = ⟨-(1 / 2 ^ 20)⟩ := by
    show (⟨Binary32.round (0 + -(1 / 2 ^ 20))⟩ : Binary32) = _
    rw [zero_add, Binary32.round_neg_small]
  have hfmod : Binary32.fmod ⟨-(1 / 2 ^ 20)⟩ ⟨360⟩ = ⟨-(1 / 2 ^ 20)⟩ := by
    show (⟨Exact.fmod (-(1 / 2 ^ 20)) 360⟩ : Binary32) = _
    rw [Binary32.fmod_small]
  have hlt : (⟨-(1 / 2 ^ 20)⟩ : Binary32) < ⟨0⟩ := by
    show (-(1 / 2 ^ 20) : ℚ) < 0
    norm_num
  have hup : (⟨-(1 / 2 ^ 20)⟩ : Binary32) + ⟨360⟩ = ⟨360⟩ := by
    show (⟨Binary32.round (-(1 / 2 ^ 20) + 360)⟩ : Binary32) = _
    rw [show (-(1 / 2 ^ 20) + 360 : ℚ) = 360 - 1 / 2 ^ 20 by ring, Binary32.round_below_360]
  have hright : (TurtleRotateRight Binary32.fmod ⟨1 / 2 ^ 20⟩
      ⟨⟨0⟩, ⟨0⟩, ⟨0⟩, true, ⟨1⟩, ⟨1⟩, ⟨1⟩⟩).angleDeg = ⟨360⟩ := by
    simp only [TurtleRotateRight, Binary32.literal_360, Binary32.literal_zero, hsub, hfmod,
      hlt, if_true, hup]
  have hleft : (TurtleRotateLeft Binary32.fmod ⟨-(1 / 2 ^ 20)⟩
      ⟨⟨0⟩, ⟨0⟩, ⟨0⟩, true, ⟨1⟩, ⟨1⟩, ⟨1⟩⟩).angleDeg = ⟨360⟩ := by
    simp only [TurtleRotateLeft, Binary32.literal_360, Binary32.literal_zero, hadd, hfmod,
      hlt, if_true, hup]
  refine ⟨Binary32.round_zero, Binary32.round_small, hright, hleft, ?_⟩
  rw [hright, Binary32.literal_360]
  show ¬ ((360 : ℚ) < 360)
  norm_num

end TurtleOpenGL

/-! ## The chaos game stays inside the leaves of the subdivider -/

namespace Random2D

open Subdivision2D

/-- Two points with the same coordinates are equal. -/
theorem point_eq {F : Type} (p q : Point2 F) (hx : p.x = q.x) (hy : p.y = q.y) : p = q := by
  cases p
  cases q
  simp only [Point2.mk.injEq]
  exact ⟨hx, hy⟩

section Chaos

variable {F : Type} [LinearOrderedField F]

theorem calculateMidpoint_x (p q : Point2 F) : (calculateMidpoint p q).x = (p.x + q.x) / 2 := by
  simp only [calculateMidpoint, literal_two]

theorem calculateMidpoint_y (p q : Point2 F) : (calculateMidpoint p q).y = (p.y + q.y) / 2 := by
  simp only [calculateMidpoint, literal_two]

/-- Halving toward a point `v` commutes with taking the midpoint of an edge. -/
theorem midpoint_half (a b v : Point2 F) :
    midpoint (calculateMidpoint a v) (calculateMidpoint b v) =
      calculateMidpoint (midpoint a b) v := by
  apply point_eq <;>
    simp only [midpoint_x, midpoint_y, calculateMidpoint_x, calculateMidpoint_y] <;> ring

/-- Halving toward `v` maps the closed region of a triangle into the closed region of the
halved triangle. -/
theorem inTriangle_half (p a b c v : Point2 F) (h : inTriangle p ⟨a, b, c⟩) :
    inTriangle (calculateMidpoint p v)
      ⟨calculateMidpoint a v, calculateMidpoint b v, calculateMidpoint c v⟩ := by
  obtain ⟨u, w1, w2, hu, hw1, hw2, hsum, hx, hy⟩ := h
  refine ⟨u, w1, w2, hu, hw1, hw2, hsum, ?_, ?_⟩
  · simp only [calculateMidpoint_x]
    simp only [] at hx
    rw [hx]
    linear_combination (-(v.x) / 2) * hsum
  · simp only [calculateMidpoint_y]
    simp only [] at hy
    rw [hy]
    linear_combination (-(v.y) / 2) * hsum

/-- Halving toward `v` maps the leaves of a triangle into the leaves of the halved
triangle, at every depth. -/
theorem inGasket_half (v : Point2 F) (d : Nat) :
    ∀ (p a b c : Point2 F), inGasket d p a b c →
      inGasket d (calculateMidpoint p v) (calculateMidpoint a v) (calculateMidpoint b v)
        (calculateMidpoint c v) := by
  induction d with
  | zero =>
    intro p a b c h
    exact inTriangle_half p a b c v h
  | succ d ih =>
    intro p a b c h
    simp only [inGasket] at h ⊢
    rw [midpoint_half, midpoint_half, midpoint_half]
    rcases h with h | h | h
    · exact Or.inl (ih _ _ _ _ h)
    · exact Or.inr (Or.inl (ih _ _ _ _ h))
    · exact Or.inr (Or.inr (ih _ _ _ _ h))

/-- Halving a point of the leaves at depth `d` toward a corner of the triangle gives a
point of the leaves at depth `d + 1`: the halved triangle is a corner sub-triangle. -/
theorem inGasket_step (d : Nat) (p a b c : Point2 F) (h : inGasket d p a b c) :
    inGasket (d + 1) (calculateMidpoint p a) a b c ∧
    inGasket (d + 1) (calculateMidpoint p b) a b c ∧
    inGasket (d + 1) (calculateMidpoint p c) a b c := by
  have haa : calculateMidpoint a a = a := by
    apply point_eq <;> simp only [calculateMidpoint_x, calculateMidpoint_y] <;> ring
  have hba : calculateMidpoint b a = midpoint a b := by
    apply point_eq <;>
      simp only [midpoint_x, midpoint_y, calculateMidpoint_x, calculateMidpoint_y] <;> ring
  have hca : calculateMidpoint c a = midpoint c a := by
    apply point_eq <;>
      simp only [midpoint_x, midpoint_y, calculateMidpoint_x, calculateMidpoint_y]
  have hab : calculateMidpoint a b = midpoint a b := by
    apply point_eq <;>
      simp only [midpoint_x, midpoint_y, calculateMidpoint_x, calculateMidpoint_y]
  have hbb : calculateMidpoint b b = b := by
    apply point_eq <;> simp only [calculateMidpoint_x, calculateMidpoint_y] <;> ring
  have hcb : calculateMidpoint c b = midpoint b c := by
    apply point_eq <;>
      simp only [midpoint_x, midpoint_y, calculateMidpoint_x, calculateMidpoint_y] <;> ring
  have hac : calculateMidpoint a c = midpoint c a := by
    apply point_eq <;>
      simp only [midpoint_x, midpoint_y, calculateMidpoint_x, calculateMidpoint_y] <;> ring
  have hbc : calculateMidpoint b c = midpoint b c := by
    apply point_eq <;>
      simp only [midpoint_x, midpoint_y, calculateMidpoint_x, calculateMidpoint_y]
  have hcc : calculateMidpoint c c = c := by
    apply point_eq <;> simp only [calculateMidpoint_x, calculateMidpoint_y] <;> ring
  have h1 := inGasket_half a d p a b c h
  have h2 := inGasket_half b d p a b c h
  have h3 := inGasket_half c d p a b c h
  rw [haa, hba, hca] at h1
  rw [hab, hbb, hcb] at h2
  rw [hac, hbc, hcc] at h3
  exact ⟨Or.inl h1, Or.inr (Or.inl h2), Or.inr (Or.inr h3)⟩

/-- Halving a point of a triangle toward one of its corners stays in the triangle. -/
theorem inTriangle_step (p a b c : Point2 F) (h : inTriangle p ⟨a, b, c⟩) :
    inTriangle (calculateMidpoint p a) ⟨a, b, c⟩ ∧
    inTriangle (calculateMidpoint p b) ⟨a, b, c⟩ ∧
    inTriangle (calculateMidpoint p c) ⟨a, b, c⟩ := by
  obtain ⟨u, w1, w2, hu, hw1, hw2, hsum, hx, hy⟩ := h
  simp only [] at hx hy
  refine ⟨⟨(u + 1) / 2, w1 / 2, w2 / 2, by positivity, by positivity, by positivity,
      by linear_combination hsum / 2, ?_, ?_⟩,
    ⟨u / 2, (w1 + 1) / 2, w2 / 2, by positivity, by positivity, by positivity,
      by linear_combination hsum / 2, ?_, ?_⟩,
    ⟨u / 2, w1 / 2, (w2 + 1) / 2, by positivity, by positivity, by positivity,
      by linear_combination hsum / 2, ?_, ?_⟩⟩ <;>
    simp only [calculateMidpoint_x, calculateMidpoint_y] <;>
    first
    | (rw [hx]; ring)
    | (rw [hy]; ring)

/-- The second corner of a triangle belongs to its leaves at every depth. -/
theorem inGasket_second_corner (d : Nat) :
    ∀ (a b c : Point2 F), inGasket d b a b c := by
  induction d with
  | zero =>
    intro a b c
    exact ⟨0, 1, 0, le_refl 0, zero_le_one, le_refl 0, by ring, by simp, by simp⟩
  | succ d ih =>
    intro a b c
    exact Or.inr (Or.inl (ih (midpoint a b) b (midpoint b c)))

/-- The midpoint of the first edge of a triangle belongs to its leaves at every depth. -/
theorem inGasket_first_midpoint (d : Nat) (a b c : Point2 F) :
    inGasket d (midpoint a b) a b c := by
  cases d with
  | zero =>
    refine ⟨1 / 2, 1 / 2, 0, by positivity, by positivity, le_refl 0, by ring, ?_, ?_⟩
    · simp only [midpoint_x]
      ring
    · simp only [midpoint_y]
      ring
  | succ d => exact Or.inl (inGasket_second_corner d a (midpoint a b) (midpoint c a))

/-- The starting point `(0, 0)` of the chaos game belongs to the leaves of the initial
triangle at every depth: it is the midpoint of the lower edge of the top sub-triangle. -/
theorem inGasket_start (d : Nat) :
    inGasket d (⟨0.0, 0.0⟩ : Point2 F) (Subdivision2D.vertices 0)
      (Subdivision2D.vertices 1) (Subdivision2D.vertices 2) := by
  cases d with
  | zero =>
    refine ⟨1 / 4, 1 / 4, 1 / 2, by positivity, by positivity, by positivity, by norm_num,
      ?_, ?_⟩ <;> simp only [Subdivision2D.vertices] <;> norm_num
  | succ d =>
    have hs : (⟨0.0, 0.0⟩ : Point2 F) =
        midpoint (midpoint (Subdivision2D.vertices 2) (Subdivision2D.vertices 0))
          (midpoint (Subdivision2D.vertices 1) (Subdivision2D.vertices 2)) := by
      apply point_eq <;> simp only [midpoint_x, midpoint_y, Subdivision2D.vertices] <;>
        norm_num
    rw [hs]
    exact Or.inr (Or.inr (inGasket_first_midpoint d _ _ _))

theorem vertices_eq (j : Fin 3) :
    (vertices j : Point2 F) = Subdivision2D.vertices j := by
  fin_cases j <;> rfl

/-- Every pass of the loop keeps the current point in the leaves of every depth. -/
theorem plotLoop_inGasket (rand : Nat → Nat) (n : Nat) :
    ∀ (i : Nat) (p : Point2 F),
      (∀ d, inGasket d p (Subdivision2D.vertices 0) (Subdivision2D.vertices 1)
        (Subdivision2D.vertices 2)) →
      ∀ q ∈ plotLoop rand n i p, ∀ d,
        inGasket d q (Subdivision2D.vertices 0) (Subdivision2D.vertices 1)
          (Subdivision2D.vertices 2) := by
  induction n with
  | zero =>
    intro i p _ q hq
    simp [plotLoop] at hq
  | succ n ih =>
    intro i p hp q hq
    have hnext : ∀ (j : Fin 3) (d : Nat),
        inGasket d (calculateMidpoint p (vertices j)) (Subdivision2D.vertices 0)
          (Subdivision2D.vertices 1) (Subdivision2D.vertices 2) := by
      intro j d
      rw [vertices_eq]
      cases d with
      | zero =>
        obtain ⟨h0, h1, h2⟩ := inTriangle_step p _ _ _ (hp 0)
        fin_cases j
        · exact h0
        · exact h1
        · exact h2
      | succ d =>
        obtain ⟨h0, h1, h2⟩ := inGasket_step d p _ _ _ (hp d)
        fin_cases j
        · exact h0
        · exact h1
        · exact h2
    simp only [plotLoop, List.mem_cons] at hq
    rcases hq with rfl | hq
    · exact hnext _
    · exact ih (i + 1) _ (hnext _) q hq

end Chaos

/-- C11. In exact arithmetic, for every sequence of values returned by `rand()`, every
`numPoints` and every depth `d ≥ 0`, `subdivideTriangle` completes at depth `d` on the
triangle `{(-0.9,-0.9), (0.9,-0.9), (0,0.9)}`, and each point plotted by the loop of
`display` of the random-point program, which starts from `(0, 0)` on the same triangle,
lies in the closed region of at least one of the leaves it emits. -/
theorem C11_chaos_game_points_in_leaves {F : Type} [LinearOrderedField F]
    (rand : Nat → Nat) (numPoints : Int) (d k : Nat) :
    ∃ l, subdivideTriangle (d + k) (Subdivision2D.vertices 0 : Point2 F)
        (Subdivision2D.vertices 1) (Subdivision2D.vertices 2) (d : Int) = some l ∧
      ∀ p ∈ (display numPoints rand : Frame F).points, ∃ t ∈ l, inTriangle p t := by
  obtain ⟨l, hl, hcover⟩ :=
    subdivideTriangle_induct
      (fun d a b c (l : List (Triangle F)) =>
        ∀ p, inGasket d p a b c → ∃ t ∈ l, inTriangle p t)
      (fun a b c p hp => ⟨drawTriangle a b c, List.mem_singleton.mpr rfl, hp⟩)
      (fun d a b c l1 l2 l3 h1 h2 h3 p hp => by
        rcases hp with hp | hp | hp
        · obtain ⟨t, ht, hin⟩ := h1 p hp
          exact ⟨t, by simp [ht], hin⟩
        · obtain ⟨t, ht, hin⟩ := h2 p hp
          exact ⟨t, by simp [ht], hin⟩
        · obtain ⟨t, ht, hin⟩ := h3 p hp
          exact ⟨t, by simp [ht], hin⟩)
      d k (Subdivision2D.vertices 0) (Subdivision2D.vertices 1) (Subdivision2D.vertices 2)
  refine ⟨l, hl, fun p hp => hcover p ?_⟩
  exact plotLoop_inGasket rand numPoints.toNat 0 ⟨0.0, 0.0⟩ inGasket_start p hp d

end Random2D


/-! ## Subdivision composes -/

namespace Subdivision2D

section Compose

variable {F : Type} [Add F] [Div F] [OfScientific F]

/-- What a completed call emits does not depend on the bound on nested calls. -/
theorem subdivideTriangle_fuel (d k : Nat) (a b c : Point2 F) :
    ∃ l, ∀ j : Nat, subdivideTriangle (d + j) a b c (d : Int) = some l := by
  obtain ⟨l, _, hl⟩ :=
    subdivideTriangle_induct
      (fun d a b c l => ∀ j : Nat, subdivideTriangle (d + j) a b c (d : Int) = some l)
      (fun a b c j => by simpa using subdivideTriangle_zero (0 + j) a b c)
      (fun d a b c l1 l2 l3 h1 h2 h3 j => by
        have hne : ((d + 1 : Nat) : Int) ≠ 0 := by omega
        have hfuel : d + 1 + j = (d + j) + 1 := by omega
        have hdep : ((d + 1 : Nat) : Int) - 1 = (d : Int) := by omega
        rw [hfuel, subdivideTriangle_succ _ _ _ _ _ hne, hdep, h1 j, h2 j, h3 j]
        rfl)
      d k a b c
  exact ⟨l, hl⟩

/-- Re-subdividing a concatenation is concatenating the re-subdivisions. -/
theorem subdivideEach_append (fuel : Nat) (depth : Int) (l1 l2 r1 r2 : List (Triangle F))
    (h1 : subdivideEach fuel depth l1 = some r1)
    (h2 : subdivideEach fuel depth l2 = some r2) :
    subdivideEach fuel depth (l1 ++ l2) = some (r1 ++ r2) := by
  induction l1 generalizing r1 with
  | nil =>
    simp only [subdivideEach, Option.some.injEq] at h1
    subst h1
    simpa using h2
  | cons t ts ih =>
    simp only [subdivideEach] at h1
    cases ht : subdivideTriangle fuel t.a t.b t.c depth with
    | none => simp [ht] at h1
    | some e =>
      rw [ht] at h1
      cases hts : subdivideEach fuel depth ts with
      | none => simp [hts] at h1
      | some e2 =>
        rw [hts] at h1
        simp only [Option.some.injEq] at h1
        subst h1
        simp only [List.cons_append, subdivideEach, ht, List.append_assoc]
        rw [show ts.append l2 = ts ++ l2 from rfl, ih e2 hts]

end Compose

end Subdivision2D

namespace Tetrahedron3D

section Compose

variable {F : Type} [Add F] [Div F] [OfScientific F]

/-- What a completed call emits does not depend on the bound on nested calls. -/
theorem subdivideTetrahedron_fuel (n k : Nat) (a b c d : Point3 F) :
    ∃ l, ∀ j : Nat, subdivideTetrahedron (n + j) a b c d (n : Int) = some l := by
  obtain ⟨l, _, hl⟩ :=
    subdivideTetrahedron_induct
      (fun n a b c d l =>
        ∀ j : Nat, subdivideTetrahedron (n + j) a b c d (n : Int) = some l)
      (fun a b c d j => by simpa using subdivideTetrahedron_zero (0 + j) a b c d)
      (fun n a b c d l1 l2 l3 l4 h1 h2 h3 h4 j => by
        have hne : ((n + 1 : Nat) : Int) ≠ 0 := by omega
        have hfuel : n + 1 + j = (n + j) + 1 := by omega
        have hdep : ((n + 1 : Nat) : Int) - 1 = (n : Int) := by omega
        rw [hfuel, subdivideTetrahedron_succ _ _ _ _ _ _ hne, hdep, h1 j, h2 j, h3 j, h4 j]
        rfl)
      n k a b c d
  exact ⟨l, hl⟩

/-- Re-subdividing a concatenation is concatenating the re-subdivisions. -/
theorem subdivideEach3_append (fuel : Nat) (depth : Int) (l1 l2 r1 r2 : List (Leaf F))
    (h1 : subdivideEach fuel depth l1 = some r1)
    (h2 : subdivideEach fuel depth l2 = some r2) :
    subdivideEach fuel depth (l1 ++ l2) = some (r1 ++ r2) := by
  induction l1 generalizing r1 with
  | nil =>
    simp only [subdivideEach, Option.some.injEq] at h1
    subst h1
    simpa using h2
  | cons t ts ih =>
    simp only [subdivideEach] at h1
    cases ht : subdivideTetrahedron fuel t.a t.b t.c t.d depth with
    | none => simp [ht] at h1
    | some e =>
      rw [ht] at h1
      cases hts : subdivideEach fuel depth ts with
      | none => simp [hts] at h1
      | some e2 =>
        rw [hts] at h1
        simp only [Option.some.injEq] at h1
        subst h1
        simp only [List.cons_append, subdivideEach, ht, List.append_assoc]
        rw [show ts.append l2 = ts ++ l2 from rfl, ih e2 hts]

end Compose

end Tetrahedron3D

namespace Subdivision2D

/-- The composition law for `subdivideTriangle`, for given slacks in the bounds on
nested calls. -/
theorem subdivideTriangle_compose {F : Type} [Add F] [Div F] [OfScientific F]
    (m n k1 k2 k3 : Nat) (a b c : Point2 F) :
    ∃ lm r, subdivideTriangle (m + k1) a b c (m : Int) = some lm ∧
      subdivideEach (n + k2) (n : Int) lm = some r ∧
      subdivideTriangle (m + n + k3) a b c ((m + n : Nat) : Int) = some r := by
  obtain ⟨lm, hlm, r, hr, hdirect⟩ :=
    subdivideTriangle_induct
      (fun m a b c (lm : List (Triangle F)) =>
        ∃ r, subdivideEach (n + k2) (n : Int) lm = some r ∧
          subdivideTriangle (m + n + k3) a b c ((m + n : Nat) : Int) = some r)
      (fun a b c => by
        obtain ⟨r, hr⟩ := subdivideTriangle_fuel n 0 a b c
        refine ⟨r, ?_, ?_⟩
        · simp only [subdivideEach, drawTriangle, hr k2, List.append_nil]
        · rw [Nat.zero_add]
          exact hr k3)
      (fun m a b c l1 l2 l3 h1 h2 h3 => by
        obtain ⟨r1, e1, s1⟩ := h1
        obtain ⟨r2, e2, s2⟩ := h2
        obtain ⟨r3, e3, s3⟩ := h3
        refine ⟨r1 ++ r2 ++ r3, ?_, ?_⟩
        · exact subdivideEach_append _ _ _ _ _ _
            (subdivideEach_append _ _ _ _ _ _ e1 e2) e3
        · have hne : ((m + 1 + n : Nat) : Int) ≠ 0 := by omega
          have hfuel : m + 1 + n + k3 = (m + n + k3) + 1 := by omega
          have hdep : ((m + 1 + n : Nat) : Int) - 1 = ((m + n : Nat) : Int) := by omega
          rw [hfuel, subdivideTriangle_succ _ _ _ _ _ hne, hdep, s1, s2, s3]
          rfl)
      m k1 a b c
  exact ⟨lm, r, hlm, hr, hdirect⟩

end Subdivision2D

namespace Tetrahedron3D

/-- The composition law for `subdivideTetrahedron`, for given slacks in the bounds on
nested calls. -/
theorem subdivideTetrahedron_compose {F : Type} [Add F] [Div F] [OfScientific F]
    (m n k1 k2 k3 : Nat) (a b c d : Point3 F) :
    ∃ lm r, subdivideTetrahedron (m + k1) a b c d (m : Int) = some lm ∧
      subdivideEach (n + k2) (n : Int) lm = some r ∧
      subdivideTetrahedron (m + n + k3) a b c d ((m + n : Nat) : Int) = some r := by
  obtain ⟨lm, hlm, r, hr, hdirect⟩ :=
    subdivideTetrahedron_induct
      (fun m a b c d (lm : List (Leaf F)) =>
        ∃ r, subdivideEach (n + k2) (n : Int) lm = some r ∧
          subdivideTetrahedron (m + n + k3) a b c d ((m + n : Nat) : Int) = some r)
      (fun a b c d => by
        obtain ⟨r, hr⟩ := subdivideTetrahedron_fuel n 0 a b c d
        refine ⟨r, ?_, ?_⟩
        · simp only [subdivideEach, baseCase, hr k2, List.append_nil]
        · rw [Nat.zero_add]
          exact hr k3)
      (fun m a b c d l1 l2 l3 l4 h1 h2 h3 h4 => by
        obtain ⟨r1, e1, s1⟩ := h1
        obtain ⟨r2, e2, s2⟩ := h2
        obtain ⟨r3, e3, s3⟩ := h3
        obtain ⟨r4, e4, s4⟩ := h4
        refine ⟨r1 ++ r2 ++ r3 ++ r4, ?_, ?_⟩
        · exact subdivideEach3_append _ _ _ _ _ _
            (subdivideEach3_append _ _ _ _ _ _
              (subdivideEach3_append _ _ _ _ _ _ e1 e2) e3) e4
        · have hne : ((m + 1 + n : Nat) : Int) ≠ 0 := by omega
          have hfuel : m + 1 + n + k3 = (m + n + k3) + 1 := by omega
          have hdep : ((m + 1 + n : Nat) : Int) - 1 = ((m + n : Nat) : Int) := by omega
          rw [hfuel, subdivideTetrahedron_succ _ _ _ _ _ _ hne, hdep, s1, s2, s3, s4]
          rfl)
      m k1 a b c d
  exact ⟨lm, r, hlm, hr, hdirect⟩

/-- C21. Subdivision composes, whatever the arithmetic on coordinates: for every
triangle and all `m, n ≥ 0` the call at depth `m` completes with leaves `lm`,
re-subdividing each leaf of `lm` at depth `n` in emission order completes, and the
concatenation of what these calls emit is exactly the ordered list of leaves emitted by
the call at depth `m + n`; the same law holds for `subdivideTetrahedron`, a leaf being
re-subdivided from its four corners. -/
theorem C21_subdivision_composes {F : Type} [Add F] [Div F] [OfScientific F]
    (m n k1 k2 k3 : Nat) :
    (∀ a b c : Subdivision2D.Point2 F, ∃ lm r,
      Subdivision2D.subdivideTriangle (m + k1) a b c (m : Int) = some lm ∧
      Subdivision2D.subdivideEach (n + k2) (n : Int) lm = some r ∧
      Subdivision2D.subdivideTriangle (m + n + k3) a b c ((m + n : Nat) : Int) = some r) ∧
    (∀ a b c d : Point3 F, ∃ lm r,
      subdivideTetrahedron (m + k1) a b c d (m : Int) = some lm ∧
      subdivideEach (n + k2) (n : Int) lm = some r ∧
      subdivideTetrahedron (m + n + k3) a b c d ((m + n : Nat) : Int) = some r) := by
  constructor
  · intro a b c
    exact Subdivision2D.subdivideTriangle_compose m n k1 k2 k3 a b c
  · intro a b c d
    exact subdivideTetrahedron_compose m n k1 k2 k3 a b c d

end Tetrahedron3D

/-! ## The number of points of the chaos game -/

namespace Random2D

/-- One call of `keyboard` keeps `numPoints` a multiple of 5000 that is at least 5000. -/
theorem keyboard_keeps_multiple (key : Nat) (x y : Int) (n n1 : Int)
    (hn : 5000 ∣ n ∧ 5000 ≤ n) (h : keyboard key x y n = some n1) :
    5000 ∣ n1 ∧ 5000 ≤ n1 := by
  obtain ⟨⟨q, hq⟩, hle⟩ := hn
  unfold keyboard at h
  split at h
  · exact absurd h (by simp)
  all_goals (try split_ifs at h with hc)
  all_goals (simp only [Option.some.injEq] at h; subst h)
  all_goals first
    | exact ⟨⟨q, hq⟩, hle⟩
    | exact ⟨⟨q + 1, by omega⟩, by omega⟩
    | exact ⟨⟨q - 1, by omega⟩, by omega⟩

/-- Every sequence of key presses keeps `numPoints` a multiple of 5000 that is at least
5000. -/
theorem pressKeys_keeps_multiple (ks : List Subdivision2D.KeyPress) :
    ∀ (n n1 : Int), 5000 ∣ n ∧ 5000 ≤ n → pressKeys n ks = some n1 →
      5000 ∣ n1 ∧ 5000 ≤ n1 := by
  induction ks with
  | nil =>
    intro n n1 hn h
    simp only [pressKeys, Option.some.injEq] at h
    exact h ▸ hn
  | cons k ks ih =>
    intro n n1 hn h
    simp only [pressKeys] at h
    cases hk : keyboard k.key k.x k.y n with
    | none => simp [hk] at h
    | some n2 =>
      rw [hk] at h
      exact ih n2 n1 (keyboard_keeps_multiple _ _ _ _ _ hn hk) h

/-- C22. In the chaos-game program, with `numPoints` an unbounded integer (no
overflow), starting from `numPoints = 50000`, after any sequence of key presses
`numPoints` is a multiple of 5000 and at least 5000: `+` (or `=`) always adds 5000,
`-` (or `_`) subtracts 5000 when `numPoints > 5000` and leaves it unchanged otherwise,
in particular at exactly 5000, and `R` (either case) leaves it unchanged. -/
theorem C22_numPoints_multiple_of_5000 (ks : List Subdivision2D.KeyPress) (n : Int)
    (h : pressKeys initialNumPoints ks = some n) :
    (5000 ∣ n ∧ 5000 ≤ n) ∧
    (∀ (p x y : Int), keyboard 43 x y p = some (p + 5000) ∧
      keyboard 61 x y p = some (p + 5000)) ∧
    (∀ (p x y : Int), p > 5000 → keyboard 45 x y p = some (p - 5000) ∧
      keyboard 95 x y p = some (p - 5000)) ∧
    (∀ (p x y : Int), p ≤ 5000 → keyboard 45 x y p = some p ∧
      keyboard 95 x y p = some p) ∧
    (∀ (x y : Int), keyboard 45 x y 5000 = some 5000 ∧ keyboard 95 x y 5000 = some 5000) ∧
    (∀ (p x y : Int), keyboard 114 x y p = some p ∧ keyboard 82 x y p = some p) := by
  refine ⟨pressKeys_keeps_multiple ks initialNumPoints n ?_ h, ?_, ?_, ?_, ?_, ?_⟩
  · exact ⟨⟨10, by decide⟩, by decide⟩
  · intro p x y
    exact ⟨rfl, rfl⟩
  · intro p x y hp
    simp [keyboard, hp]
  · intro p x y hp
    have hnot : ¬ p > 5000 := by omega
    simp [keyboard, hnot]
  · intro x y
    exact ⟨rfl, rfl⟩
  · intro p x y
    exact ⟨rfl, rfl⟩

/-- Ten presses of `-` from 50000 stop at 5000, and a press of `+` and of `R` then give
10000. -/
theorem C22_numPoints_multiple_of_5000_witness :
    pressKeys initialNumPoints
      [⟨45, 0, 0⟩, ⟨45, 0, 0⟩, ⟨45, 0, 0⟩, ⟨45, 0, 0⟩, ⟨45, 0, 0⟩, ⟨95, 0, 0⟩, ⟨45, 0, 0⟩,
       ⟨45, 0, 0⟩, ⟨45, 0, 0⟩, ⟨45, 0, 0⟩, ⟨43, 3, 4⟩, ⟨114, 0, 0⟩] = some 10000 ∧
    ((5000 : Int) ∣ 10000 ∧ (5000 : Int) ≤ 10000) :=
  have hrun : pressKeys initialNumPoints
      [⟨45, 0, 0⟩, ⟨45, 0, 0⟩, ⟨45, 0, 0⟩, ⟨45, 0, 0⟩, ⟨45, 0, 0⟩, ⟨95, 0, 0⟩, ⟨45, 0, 0⟩,
       ⟨45, 0, 0⟩, ⟨45, 0, 0⟩, ⟨45, 0, 0⟩, ⟨43, 3, 4⟩, ⟨114, 0, 0⟩] = some 10000 := by
    decide
  ⟨hrun, (C22_numPoints_multiple_of_5000 _ 10000 hrun).1⟩

end Random2D

/-! ## The camera follows the mouse -/

namespace Stairwell

section ExactReading

variable {F : Type} [LinearOrderedField F]

/-- In exact arithmetic, with `double` and `float` the same numbers: after every call
the pitch is in `[-89, 89]`, and a call with `firstMouse` set computes zero offsets, so
that it keeps the yaw, and keeps a pitch that was within `[-89, 89]`. -/
theorem mouse_callback_exact (cos sin radians : F → F) (normalize : Vec3 F → Vec3 F)
    (xpos ypos : F) (s : Camera F) :
    (-89 ≤ (mouse_callback id id cos sin radians normalize xpos ypos s).pitch ∧
      (mouse_callback id id cos sin radians normalize xpos ypos s).pitch ≤ 89) ∧
    (s.firstMouse = true →
      (mouse_callback id id cos sin radians normalize xpos ypos s).yaw = s.yaw ∧
      (-89 ≤ s.pitch → s.pitch ≤ 89 →
        (mouse_callback id id cos sin radians normalize xpos ypos s).pitch = s.pitch)) := by
  have h89 : (89.0 : F) = 89 := by norm_num
  constructor
  · simp only [mouse_callback, h89]
    split_ifs <;> constructor <;> (try dsimp only) <;> linarith
  · intro hfirst
    constructor
    · simp only [mouse_callback, hfirst, if_true, id, sub_self, zero_mul, add_zero]
      split_ifs <;> rfl
    · intro hlo hhi
      simp only [mouse_callback, hfirst, if_true, id, sub_self, zero_mul, add_zero, h89]
      have h1 : ¬ s.pitch > 89 := not_lt.mpr hhi
      have h2 : ¬ s.pitch < -89 := not_lt.mpr hlo
      simp only [h1, h2, if_false]

end ExactReading

end Stairwell

namespace Binary64

/-- A rational that is an integer multiple of its own spacing is a binary64 number:
rounding leaves it unchanged. -/
theorem round64_of_multiple (x : ℚ) (e n : ℤ) (he : -1022 ≤ e)
    (h1 : (2 : ℚ) ^ e ≤ |x|) (h2 : |x| < (2 : ℚ) ^ (e + 1))
    (hn : x = (n : ℚ) * (2 : ℚ) ^ (e - 52)) : round x = x := by
  have hq : quantum x = (2 : ℚ) ^ (e - 52) := by
    unfold quantum
    rw [Binary32.log_eq x e h1 h2, max_eq_left he]
  have hne : (2 : ℚ) ^ (e - 52) ≠ 0 := zpow_ne_zero _ (by norm_num)
  unfold round
  rw [hq]
  have hdiv : x / (2 : ℚ) ^ (e - 52) = (n : ℚ) := by
    rw [hn, mul_div_assoc, div_self hne, mul_one]
  rw [hdiv, Binary32.roundHalfEven_intCast, ← hn]

theorem round64_zero : round 0 = 0 := by
  simp [round, Binary32.roundHalfEven]

theorem round64_neg_small : round (-(1 / 2 ^ 20)) = -(1 / 2 ^ 20) :=
  round64_of_multiple (-(1 / 2 ^ 20)) (-20) (-4503599627370496) (by decide)
    (by rw [abs_neg, abs_of_pos (by norm_num)]; norm_num)
    (by rw [abs_neg, abs_of_pos (by norm_num)]; norm_num) (by norm_num)

end Binary64

namespace Binary32

theorem round_89 : round 89 = 89 :=
  round_of_multiple 89 6 11665408 (by decide) (by norm_num) (by norm_num) (by norm_num)

theorem round_neg_90 : round (-90) = -90 :=
  round_of_multiple (-90) 6 (-11796480) (by decide) (by norm_num) (by norm_num)
    (by norm_num)

theorem round_600 : round 600 = 600 :=
  round_of_multiple 600 9 9830400 (by decide) (by norm_num) (by norm_num) (by norm_num)

/-- The `float` nearest to one tenth is `13421773 / 2 ^ 27`. -/
theorem round_tenth : round (1 / 10) = 13421773 / 2 ^ 27 := by
  have hx : |(1 / 10 : ℚ)| = 1 / 10 := abs_of_pos (by norm_num)
  have hl : Int.log 2 |(1 / 10 : ℚ)| = -4 := by
    apply log_eq
    · rw [hx]
      norm_num
    · rw [hx]
      norm_num
  have hq : quantum (1 / 10) = 1 / 2 ^ 27 := by
    unfold quantum
    rw [hl]
    norm_num
  unfold round
  rw [hq]
  have hf : ⌊((1 / 10 : ℚ) / (1 / 2 ^ 27))⌋ = 13421772 := by
    rw [Int.floor_eq_iff]
    norm_num
  unfold roundHalfEven
  rw [hf]
  norm_num

/-- Around 450 the binary32 numbers are `2 ^ (-15)` apart, so `450 + 2 ^ (-20)` rounds
down to 450. -/
theorem round_above_450 : round (450 + 1 / 2 ^ 20) = 450 := by
  have hx : |(450 + 1 / 2 ^ 20 : ℚ)| = 450 + 1 / 2 ^ 20 := abs_of_pos (by norm_num)
  have hl : Int.log 2 |(450 + 1 / 2 ^ 20 : ℚ)| = 8 := by
    apply log_eq
    · rw [hx]
      norm_num
    · rw [hx]
      norm_num
  have hq : quantum (450 + 1 / 2 ^ 20) = 1 / 2 ^ 15 := by
    unfold quantum
    rw [hl]
    norm_num
  unfold round
  rw [hq]
  have hf : ⌊((450 + 1 / 2 ^ 20 : ℚ) / (1 / 2 ^ 15))⌋ = 14745600 := by
    rw [Int.floor_eq_iff]
    norm_num
  unfold roundHalfEven
  rw [hf]
  norm_num

theorem round_product : round (-(13421773 / 2 ^ 47)) = -(13421773 / 2 ^ 47) :=
  round_of_multiple (-(13421773 / 2 ^ 47)) (-24) (-13421773) (by decide)
    (by rw [abs_neg, abs_of_pos (by norm_num)]; norm_num)
    (by rw [abs_neg, abs_of_pos (by norm_num)]; norm_num) (by norm_num)

end Binary32

namespace IEEE32

theorem ofRat_isFloat (x : ℚ) (h : isFloat x) : ofRat x = finite ⟨x⟩ := by
  unfold ofRat
  rw [h.1, if_pos h.2]

/-- An exact result never rounds to a NaN. -/
theorem ofRat_ne_nan (x : ℚ) : ofRat x ≠ nan := by
  unfold ofRat
  split_ifs <;> simp

theorem isFloat_zero : isFloat 0 := ⟨Binary32.round_zero, by norm_num⟩

theorem isFloat_89 : isFloat 89 := ⟨Binary32.round_89, by norm_num⟩

theorem isFloat_neg_90 : isFloat (-90) := ⟨Binary32.round_neg_90, by norm_num⟩

theorem isFloat_600 : isFloat 600 := ⟨Binary32.round_600, by norm_num⟩

theorem isFloat_product : isFloat (-(13421773 / 2 ^ 47)) :=
  ⟨Binary32.round_product, by rw [abs_neg, abs_of_pos (by norm_num)]; norm_num⟩

theorem isFloat_neg_small : isFloat (-(1 / 2 ^ 20)) :=
  ⟨Binary32.round_neg_small, by rw [abs_neg, abs_of_pos (by norm_num)]; norm_num⟩

theorem literal_zero_float : (0.0 : IEEE32) = finite ⟨0⟩ := by
  show ofRat (0.0 : ℚ) = finite ⟨0⟩
  rw [show (0.0 : ℚ) = 0 by norm_num, ofRat_isFloat 0 isFloat_zero]

theorem literal_89 : (89.0 : IEEE32) = finite ⟨89⟩ := by
  show ofRat (89.0 : ℚ) = finite ⟨89⟩
  rw [show (89.0 : ℚ) = 89 by norm_num, ofRat_isFloat 89 isFloat_89]

theorem literal_neg_89 : (-89.0 : IEEE32) = finite ⟨-89⟩ := by
  show neg (89.0 : IEEE32) = finite ⟨-89⟩
  rw [literal_89]
  rfl

theorem literal_neg_90 : (-90.0 : IEEE32) = finite ⟨-90⟩ := by
  show neg (ofRat (90.0 : ℚ)) = finite ⟨-90⟩
  have h90 : isFloat 90 :=
    ⟨Binary32.round_of_multiple 90 6 11796480 (by decide) (by norm_num) (by norm_num)
      (by norm_num), by norm_num⟩
  rw [show (90.0 : ℚ) = 90 by norm_num, ofRat_isFloat 90 h90]
  rfl

theorem literal_tenth : (0.1 : IEEE32) = finite ⟨13421773 / 2 ^ 27⟩ := by
  show ofRat (0.1 : ℚ) = finite ⟨13421773 / 2 ^ 27⟩
  unfold ofRat
  rw [show (0.1 : ℚ) = 1 / 10 by norm_num, Binary32.round_tenth,
    if_pos (by rw [abs_of_pos (by norm_num)]; norm_num)]

theorem add_finite (a b : ℚ) : finite ⟨a⟩ + finite ⟨b⟩ = ofRat (a + b) := rfl

theorem mul_finite (a b : ℚ) : finite ⟨a⟩ * finite ⟨b⟩ = ofRat (a * b) := rfl

theorem lt_finite (a b : ℚ) : (finite ⟨a⟩ < finite ⟨b⟩) ↔ a < b := by
  show lt (finite ⟨a⟩) (finite ⟨b⟩) = true ↔ a < b
  simp [lt]

end IEEE32

namespace IEEE64

theorem ofRat_zero : ofRat 0 = finite ⟨0⟩ := by
  unfold ofRat
  rw [Binary64.round64_zero, if_pos (by norm_num)]

theorem ofRat64_ne_nan (x : ℚ) : ofRat x ≠ nan := by
  unfold ofRat
  split_ifs <;> simp

theorem sub_finite (a b : ℚ) : (finite ⟨a⟩ : IEEE64) - finite ⟨b⟩ = ofRat (a - b) := rfl

theorem toFloat_finite (x : ℚ) : toFloat (finite ⟨x⟩) = IEEE32.ofRat x := rfl

theorem ofFloat_finite (x : ℚ) : ofFloat (IEEE32.finite ⟨x⟩) = finite ⟨x⟩ := rfl

end IEEE64

namespace Stairwell

section Unfold

variable {D F : Type} [Sub D] [Add F] [Mul F] [Neg F] [LT F] [∀ a b : F, Decidable (a < b)]
  [OfScientific F]

/-- The yaw after a call: the old yaw plus the scaled horizontal offset. -/
theorem mouse_callback_yaw (toFloat : D → F) (toDouble : F → D) (cos sin radians : F → F)
    (normalize : Vec3 F → Vec3 F) (xpos ypos : D) (s : Camera F) :
    (mouse_callback toFloat toDouble cos sin radians normalize xpos ypos s).yaw =
      s.yaw +
        toFloat (xpos - toDouble (if s.firstMouse then toFloat xpos else s.lastX)) * 0.1 := by
  unfold mouse_callback
  cases s.firstMouse <;> simp only [if_true, if_false] <;> split_ifs <;> rfl

/-- The pitch after a call: the old pitch plus the scaled vertical offset, clamped. -/
theorem mouse_callback_pitch (toFloat : D → F) (toDouble : F → D) (cos sin radians : F → F)
    (normalize : Vec3 F → Vec3 F) (xpos ypos : D) (s : Camera F) :
    (mouse_callback toFloat toDouble cos sin radians normalize xpos ypos s).pitch =
      if (if s.pitch +
            toFloat (toDouble (if s.firstMouse then toFloat ypos else s.lastY) - ypos) * 0.1
              > 89.0 then 89.0
          else s.pitch +
            toFloat (toDouble (if s.firstMouse then toFloat ypos else s.lastY) - ypos) * 0.1)
          < -89.0 then -89.0
      else
        (if s.pitch +
            toFloat (toDouble (if s.firstMouse then toFloat ypos else s.lastY) - ypos) * 0.1
              > 89.0 then 89.0
          else s.pitch +
            toFloat (toDouble (if s.firstMouse then toFloat ypos else s.lastY) - ypos) *
              0.1) := by
  unfold mouse_callback
  cases s.firstMouse <;> simp only [if_true, if_false] <;> split_ifs <;> rfl

end Unfold

/-- Clamping a `float` that is not a NaN gives a finite number within `[-89, 89]`. -/
theorem clamp_range (w : IEEE32) (hw : w ≠ IEEE32.nan) :
    ∃ q : ℚ,
      (if (if w > 89.0 then 89.0 else w) < -89.0 then (-89.0 : IEEE32)
        else (if w > 89.0 then 89.0 else w)) = IEEE32.finite ⟨q⟩ ∧ -89 ≤ q ∧ q ≤ 89 := by
  rw [IEEE32.literal_neg_89, IEEE32.literal_89]
  cases w with
  | nan => exact absurd rfl hw
  | infinite s =>
    cases s
    · refine ⟨89, ?_, by norm_num, by norm_num⟩
      have h1 : (IEEE32.infinite false) > IEEE32.finite ⟨89⟩ := by
        show IEEE32.lt _ _ = true
        rfl
      have h2 : ¬ (IEEE32.finite ⟨89⟩ < IEEE32.finite ⟨-89⟩) := by
        rw [IEEE32.lt_finite]
        norm_num
      rw [if_pos h1, if_neg h2]
    · refine ⟨-89, ?_, by norm_num, by norm_num⟩
      have h1 : ¬ ((IEEE32.infinite true) > IEEE32.finite ⟨89⟩) := by
        show ¬ (IEEE32.lt _ _ = true)
        simp [IEEE32.lt]
      have h2 : IEEE32.infinite true < IEEE32.finite ⟨-89⟩ := by
        show IEEE32.lt _ _ = true
        rfl
      rw [if_neg h1, if_pos h2]
  | finite a =>
    obtain ⟨a⟩ := a
    by_cases h1 : (89 : ℚ) < a
    · refine ⟨89, ?_, by norm_num, by norm_num⟩
      have h2 : ¬ (IEEE32.finite ⟨89⟩ < IEEE32.finite ⟨-89⟩) := by
        rw [IEEE32.lt_finite]
        norm_num
      rw [if_pos ((IEEE32.lt_finite 89 a).mpr h1), if_neg h2]
    · rw [if_neg (fun h => h1 ((IEEE32.lt_finite 89 a).mp h))]
      by_cases h2 : a < -89
      · exact ⟨-89, by rw [if_pos ((IEEE32.lt_finite a (-89)).mpr h2)], by norm_num,
          by norm_num⟩
      · exact ⟨a, by rw [if_neg (fun h => h2 ((IEEE32.lt_finite a (-89)).mp h))],
          not_lt.mp h2, not_lt.mp h1⟩

/-- The scaled vertical offset is not a NaN when the cursor position is finite and the
stored position is not a NaN. -/
theorem offset_ne_nan (l : IEEE32) (hl : l ≠ IEEE32.nan) (y : ℚ) :
    IEEE64.toFloat (IEEE64.ofFloat l - IEEE64.finite ⟨y⟩) * (0.1 : IEEE32) ≠ IEEE32.nan := by
  rw [IEEE32.literal_tenth]
  have hmul : ∀ v : IEEE32, v ≠ IEEE32.nan →
      v * IEEE32.finite ⟨13421773 / 2 ^ 27⟩ ≠ IEEE32.nan := by
    intro v hv
    cases v with
    | nan => exact absurd rfl hv
    | infinite s =>
      show IEEE32.mul _ _ ≠ _
      have hne : ¬ ((13421773 / 2 ^ 27 : ℚ) = 0) := by norm_num
      simp [IEEE32.mul, hne]
    | finite a => exact IEEE32.ofRat_ne_nan _
  apply hmul
  cases l with
  | nan => exact absurd rfl hl
  | infinite s =>
    show IEEE64.toFloat (IEEE64.sub _ _) ≠ _
    simp [IEEE64.sub, IEEE64.ofFloat, IEEE64.toFloat]
  | finite a =>
    show IEEE64.toFloat (IEEE64.ofRat _) ≠ _
    unfold IEEE64.ofRat
    split_ifs
    · exact IEEE32.ofRat_ne_nan _
    · simp [IEEE64.toFloat]

/-- A finite number plus a `float` that is not a NaN is not a NaN. -/
theorem add_ne_nan (p : ℚ) (v : IEEE32) (hv : v ≠ IEEE32.nan) :
    IEEE32.finite ⟨p⟩ + v ≠ IEEE32.nan := by
  cases v with
  | nan => exact absurd rfl hv
  | infinite s =>
    show IEEE32.add _ _ ≠ _
    simp [IEEE32.add]
  | finite a => exact IEEE32.ofRat_ne_nan _

/-- In IEEE arithmetic, from a state whose pitch is finite and whose stored cursor
position was set by this or an earlier call (it is not a NaN), a call at a finite
vertical cursor position leaves the pitch finite and within `[-89, 89]`. -/
theorem mouse_callback_ieee_range (cos sin radians : IEEE32 → IEEE32)
    (normalize : Vec3 IEEE32 → Vec3 IEEE32) (xpos : IEEE64) (y p : ℚ)
    (s : Camera IEEE32) (hp : s.pitch = IEEE32.finite ⟨p⟩)
    (hl : s.firstMouse = true ∨ s.lastY ≠ IEEE32.nan) :
    ∃ q : ℚ, (mouse_callback IEEE64.toFloat IEEE64.ofFloat cos sin radians normalize
        xpos (IEEE64.finite ⟨y⟩) s).pitch = IEEE32.finite ⟨q⟩ ∧ -89 ≤ q ∧ q ≤ 89 := by
  rw [mouse_callback_pitch, hp]
  apply clamp_range
  apply add_ne_nan
  apply offset_ne_nan
  rcases hl with h | h
  · rw [h, if_pos rfl]
    exact IEEE32.ofRat_ne_nan _
  · cases s.firstMouse
    · simpa using h
    · simp only [if_true]
      exact IEEE32.ofRat_ne_nan _

/-- With the cursor at a position that is exactly a `float`, the first call computes
zero offsets. -/
theorem first_offsets_zero (x : ℚ) (hx : IEEE32.isFloat x) :
    IEEE64.toFloat (IEEE64.finite ⟨x⟩ -
      IEEE64.ofFloat (IEEE64.toFloat (IEEE64.finite ⟨x⟩))) * (0.1 : IEEE32) =
      IEEE32.finite ⟨0⟩ ∧
    IEEE64.toFloat (IEEE64.ofFloat (IEEE64.toFloat (IEEE64.finite ⟨x⟩)) -
      IEEE64.finite ⟨x⟩) * (0.1 : IEEE32) = IEEE32.finite ⟨0⟩ := by
  have hstore : IEEE64.toFloat (IEEE64.finite ⟨x⟩) = IEEE32.finite ⟨x⟩ := by
    rw [IEEE64.toFloat_finite, IEEE32.ofRat_isFloat x hx]
  have hzero : IEEE64.toFloat (IEEE64.ofRat 0) * (0.1 : IEEE32) = IEEE32.finite ⟨0⟩ := by
    rw [IEEE64.ofRat_zero, IEEE64.toFloat_finite, IEEE32.ofRat_isFloat 0 IEEE32.isFloat_zero,
      IEEE32.literal_tenth, IEEE32.mul_finite, zero_mul,
      IEEE32.ofRat_isFloat 0 IEEE32.isFloat_zero]
  rw [hstore, IEEE64.ofFloat_finite, IEEE64.sub_finite, sub_self]
  exact ⟨hzero, hzero⟩

/-- C23, counterexample. The first call of `mouse_callback` does not always compute
zero offsets.  In IEEE arithmetic, from the initial state (`firstMouse` set, yaw `-90`,
pitch `0`) the call with the cursor at `(600, 450 + 2^-20)`, whose `ypos` is not a
`float`, stores `lastY = 450.0f`, the `float` nearest to `ypos`, and then computes
`yoffset` from the `double` difference `lastY - ypos`, which is `-2^-20` and not zero:
the pitch moves from `0` to `-13421773 / 2^47` (about `-9.5e-8`), while the yaw stays
`-90`. -/
theorem C23_first_call_moves_pitch :
    ((initial : Camera IEEE32).firstMouse = true ∧
      (initial : Camera IEEE32).yaw = IEEE32.finite ⟨-90⟩ ∧
      (initial : Camera IEEE32).pitch = IEEE32.finite ⟨0⟩) ∧
    (IEEE32.isFloat 600 ∧ ¬ IEEE32.isFloat (450 + 1 / 2 ^ 20)) ∧
    ∀ (cos sin radians : IEEE32 → IEEE32) (normalize : Vec3 IEEE32 → Vec3 IEEE32),
      (mouse_callback IEEE64.toFloat IEEE64.ofFloat cos sin radians normalize
        (IEEE64.finite ⟨600⟩) (IEEE64.finite ⟨450 + 1 / 2 ^ 20⟩) initial).yaw =
        IEEE32.finite ⟨-90⟩ ∧
      (mouse_callback IEEE64.toFloat IEEE64.ofFloat cos sin radians normalize
        (IEEE64.finite ⟨600⟩) (IEEE64.finite ⟨450 + 1 / 2 ^ 20⟩) initial).pitch =
        IEEE32.finite ⟨-(13421773 / 2 ^ 47)⟩ ∧
      (mouse_callback IEEE64.toFloat IEEE64.ofFloat cos sin radians normalize
        (IEEE64.finite ⟨600⟩) (IEEE64.finite ⟨450 + 1 / 2 ^ 20⟩) initial).pitch ≠
        (initial : Camera IEEE32).pitch := by
  have hfirst : (initial : Camera IEEE32).firstMouse = true := rfl
  have hyaw0 : (initial : Camera IEEE32).yaw = IEEE32.finite ⟨-90⟩ := IEEE32.literal_neg_90
  have hpitch0 : (initial : Camera IEEE32).pitch = IEEE32.finite ⟨0⟩ := IEEE32.literal_zero_float
  have hnot : ¬ IEEE32.isFloat (450 + 1 / 2 ^ 20) := by
    intro h
    have h1 := h.1
    rw [Binary32.round_above_450] at h1
    norm_num at h1
  refine ⟨⟨hfirst, hyaw0, hpitch0⟩, ⟨IEEE32.isFloat_600, hnot⟩,
    fun cos sin radians normalize => ?_⟩
  have hstore : IEEE64.toFloat (IEEE64.finite ⟨450 + 1 / 2 ^ 20⟩) = IEEE32.finite ⟨450⟩ := by
    rw [IEEE64.toFloat_finite]
    unfold IEEE32.ofRat
    rw [Binary32.round_above_450, if_pos (by norm_num)]
  have hdiff : IEEE64.ofRat (450 - (450 + 1 / 2 ^ 20)) = IEEE64.finite ⟨-(1 / 2 ^ 20)⟩ := by
    unfold IEEE64.ofRat
    rw [show (450 - (450 + 1 / 2 ^ 20) : ℚ) = -(1 / 2 ^ 20) by ring,
      Binary64.round64_neg_small,
      if_pos (by rw [abs_neg, abs_of_pos (by norm_num)]; norm_num)]
  have hyo : IEEE64.toFloat (IEEE64.ofFloat (IEEE64.toFloat
        (IEEE64.finite ⟨450 + 1 / 2 ^ 20⟩)) - IEEE64.finite ⟨450 + 1 / 2 ^ 20⟩) *
      (0.1 : IEEE32) = IEEE32.finite ⟨-(13421773 / 2 ^ 47)⟩ := by
    rw [hstore, IEEE64.ofFloat_finite, IEEE64.sub_finite, hdiff, IEEE64.toFloat_finite,
      IEEE32.ofRat_isFloat _ IEEE32.isFloat_neg_small, IEEE32.literal_tenth,
      IEEE32.mul_finite,
      show (-(1 / 2 ^ 20) * (13421773 / 2 ^ 27) : ℚ) = -(13421773 / 2 ^ 47) by norm_num,
      IEEE32.ofRat_isFloat _ IEEE32.isFloat_product]
  have hy : (mouse_callback IEEE64.toFloat IEEE64.ofFloat cos sin radians normalize
      (IEEE64.finite ⟨600⟩) (IEEE64.finite ⟨450 + 1 / 2 ^ 20⟩) initial).yaw =
      IEEE32.finite ⟨-90⟩ := by
    rw [mouse_callback_yaw, hfirst, if_pos rfl, (first_offsets_zero 600 IEEE32.isFloat_600).1,
      hyaw0, IEEE32.add_finite, add_zero, IEEE32.ofRat_isFloat _ IEEE32.isFloat_neg_90]
  have hp : (mouse_callback IEEE64.toFloat IEEE64.ofFloat cos sin radians normalize
      (IEEE64.finite ⟨600⟩) (IEEE64.finite ⟨450 + 1 / 2 ^ 20⟩) initial).pitch =
      IEEE32.finite ⟨-(13421773 / 2 ^ 47)⟩ := by
    have hhi : ¬ (IEEE32.finite ⟨-(13421773 / 2 ^ 47)⟩ > IEEE32.finite ⟨89⟩) := by
      show ¬ (IEEE32.finite ⟨89⟩ < IEEE32.finite ⟨-(13421773 / 2 ^ 47)⟩)
      rw [IEEE32.lt_finite]
      norm_num
    have hlo : ¬ (IEEE32.finite ⟨-(13421773 / 2 ^ 47)⟩ < IEEE32.finite ⟨-89⟩) := by
      rw [IEEE32.lt_finite]
      norm_num
    rw [mouse_callback_pitch, hfirst, if_pos rfl, hyo, hpitch0, IEEE32.add_finite, zero_add,
      IEEE32.ofRat_isFloat _ IEEE32.isFloat_product, IEEE32.literal_neg_89,
      IEEE32.literal_89, if_neg hhi, if_neg hlo]
  refine ⟨hy, hp, ?_⟩
  rw [hp, hpitch0]
  intro h
  injection h with h1
  have hv := congrArg Binary32.val h1
  norm_num at hv

/-- C23, as amended. In IEEE arithmetic, after every call of `mouse_callback` at a
finite cursor position, from any state whose pitch is finite and whose stored cursor
position is not a NaN (every state the program reaches), the pitch is finite and within
`[-89, 89]`; and on the first call (`firstMouse` set), from any `float` yaw and any
`float` pitch within `[-89, 89]`, when `xpos` and `ypos` are exactly representable as
`float` the computed offsets are zero and yaw and pitch keep their previous values. -/
theorem C23_pitch_range_and_first_call (cos sin radians : IEEE32 → IEEE32)
    (normalize : Vec3 IEEE32 → Vec3 IEEE32) (s : Camera IEEE32) (x y yw p : ℚ)
    (hfirst : s.firstMouse = true)
    (hyaw : s.yaw = IEEE32.finite ⟨yw⟩) (hpitch : s.pitch = IEEE32.finite ⟨p⟩)
    (hyw : IEEE32.isFloat yw) (hpf : IEEE32.isFloat p) (hlo : -89 ≤ p) (hhi : p ≤ 89)
    (hx : IEEE32.isFloat x) (hy : IEEE32.isFloat y) :
    (∀ (xpos : IEEE64) (y1 p1 : ℚ) (s1 : Camera IEEE32),
      s1.pitch = IEEE32.finite ⟨p1⟩ →
      (s1.firstMouse = true ∨ s1.lastY ≠ IEEE32.nan) →
      ∃ q : ℚ, (mouse_callback IEEE64.toFloat IEEE64.ofFloat cos sin radians normalize
        xpos (IEEE64.finite ⟨y1⟩) s1).pitch = IEEE32.finite ⟨q⟩ ∧ -89 ≤ q ∧ q ≤ 89) ∧
    IEEE64.toFloat (IEEE64.finite ⟨x⟩ -
      IEEE64.ofFloat (IEEE64.toFloat (IEEE64.finite ⟨x⟩))) * (0.1 : IEEE32) =
      IEEE32.finite ⟨0⟩ ∧
    IEEE64.toFloat (IEEE64.ofFloat (IEEE64.toFloat (IEEE64.finite ⟨y⟩)) -
      IEEE64.finite ⟨y⟩) * (0.1 : IEEE32) = IEEE32.finite ⟨0⟩ ∧
    (mouse_callback IEEE64.toFloat IEEE64.ofFloat cos sin radians normalize
      (IEEE64.finite ⟨x⟩) (IEEE64.finite ⟨y⟩) s).yaw = s.yaw ∧
    (mouse_callback IEEE64.toFloat IEEE64.ofFloat cos sin radians normalize
      (IEEE64.finite ⟨x⟩) (IEEE64.finite ⟨y⟩) s).pitch = s.pitch := by
  refine ⟨fun xpos y1 p1 s1 hp1 hl1 =>
      mouse_callback_ieee_range cos sin radians normalize xpos y1 p1 s1 hp1 hl1,
    (first_offsets_zero x hx).1, (first_offsets_zero y hy).2, ?_, ?_⟩
  · rw [mouse_callback_yaw, hfirst, if_pos rfl, (first_offsets_zero x hx).1, hyaw,
      IEEE32.add_finite, add_zero, IEEE32.ofRat_isFloat yw hyw]
  · have h1 : ¬ (IEEE32.finite ⟨p⟩ > IEEE32.finite ⟨89⟩) := by
      show ¬ (IEEE32.finite ⟨89⟩ < IEEE32.finite ⟨p⟩)
      rw [IEEE32.lt_finite]
      exact not_lt.mpr hhi
    have h2 : ¬ (IEEE32.finite ⟨p⟩ < IEEE32.finite ⟨-89⟩) := by
      rw [IEEE32.lt_finite]
      exact not_lt.mpr hlo
    rw [mouse_callback_pitch, hfirst, if_pos rfl, (first_offsets_zero y hy).2, hpitch,
      IEEE32.add_finite, add_zero, IEEE32.ofRat_isFloat p hpf, IEEE32.literal_neg_89,
      IEEE32.literal_89, if_neg h1, if_neg h2]

/-- A first call away from the initial state and from the stored cursor position: with
yaw `12.5` and pitch `-33.25`, the cursor at `(123, 77)` keeps both. -/
theorem C23_pitch_range_and_first_call_witness :
    (IEEE32.isFloat (25 / 2) ∧ IEEE32.isFloat (-(133 / 4)) ∧
      (-89 : ℚ) ≤ -(133 / 4) ∧ (-(133 / 4) : ℚ) ≤ 89 ∧
      IEEE32.isFloat 123 ∧ IEEE32.isFloat 77) ∧
    (mouse_callback IEEE64.toFloat IEEE64.ofFloat id id id id
      (IEEE64.finite ⟨123⟩) (IEEE64.finite ⟨77⟩)
      ⟨⟨0.0, 0.0, -1.0⟩, IEEE32.finite ⟨600⟩, IEEE32.finite ⟨450⟩, true,
        IEEE32.finite ⟨25 / 2⟩, IEEE32.finite ⟨-(133 / 4)⟩⟩).yaw =
      IEEE32.finite ⟨25 / 2⟩ ∧
    (mouse_callback IEEE64.toFloat IEEE64.ofFloat id id id id
      (IEEE64.finite ⟨123⟩) (IEEE64.finite ⟨77⟩)
      ⟨⟨0.0, 0.0, -1.0⟩, IEEE32.finite ⟨600⟩, IEEE32.finite ⟨450⟩, true,
        IEEE32.finite ⟨25 / 2⟩, IEEE32.finite ⟨-(133 / 4)⟩⟩).pitch =
      IEEE32.finite ⟨-(133 / 4)⟩ :=
  have hyw : IEEE32.isFloat (25 / 2) :=
    ⟨Binary32.round_of_multiple (25 / 2) 3 13107200 (by decide)
      (by rw [abs_of_pos (by norm_num)]; norm_num)
      (by rw [abs_of_pos (by norm_num)]; norm_num) (by norm_num),
     by rw [abs_of_pos (by norm_num)]; norm_num⟩
  have hp : IEEE32.isFloat (-(133 / 4)) :=
    ⟨Binary32.round_of_multiple (-(133 / 4)) 5 (-8716288) (by decide)
      (by rw [abs_neg, abs_of_pos (by norm_num)]; norm_num)
      (by rw [abs_neg, abs_of_pos (by norm_num)]; norm_num) (by norm_num),
     by rw [abs_neg, abs_of_pos (by norm_num)]; norm_num⟩
  have hx : IEEE32.isFloat 123 :=
    ⟨Binary32.round_of_multiple 123 6 16121856 (by decide) (by norm_num) (by norm_num)
      (by norm_num), by norm_num⟩
  have hy : IEEE32.isFloat 77 :=
    ⟨Binary32.round_of_multiple 77 6 10092544 (by decide) (by norm_num) (by norm_num)
      (by norm_num), by norm_num⟩
  have hlo : (-89 : ℚ) ≤ -(133 / 4) := by norm_num
  have hhi : (-(133 / 4) : ℚ) ≤ 89 := by norm_num
  ⟨⟨hyw, hp, hlo, hhi, hx, hy⟩,
    (C23_pitch_range_and_first_call id id id id
      ⟨⟨0.0, 0.0, -1.0⟩, IEEE32.finite ⟨600⟩, IEEE32.finite ⟨450⟩, true,
        IEEE32.finite ⟨25 / 2⟩, IEEE32.finite ⟨-(133 / 4)⟩⟩
      123 77 (25 / 2) (-(133 / 4)) rfl rfl rfl hyw hp hlo hhi hx hy).2.2.2⟩

end Stairwell

namespace Stairwell

/-- Beyond the range of `float` the stored cursor position is an infinity: from the
initial state the first call with the cursor at `(600, 2^200)` computes an infinite
offset and the pitch is clamped to 89. -/
theorem mouse_callback_overflow (cos sin radians : IEEE32 → IEEE32)
    (normalize : Vec3 IEEE32 → Vec3 IEEE32) :
    IEEE64.toFloat (IEEE64.finite ⟨2 ^ 200⟩) = IEEE32.infinite false ∧
    (mouse_callback IEEE64.toFloat IEEE64.ofFloat cos sin radians normalize
      (IEEE64.finite ⟨600⟩) (IEEE64.finite ⟨2 ^ 200⟩) initial).pitch =
      IEEE32.finite ⟨89⟩ := by
  have hstore : IEEE64.toFloat (IEEE64.finite ⟨2 ^ 200⟩) = IEEE32.infinite false := by
    rw [IEEE64.toFloat_finite]
    unfold IEEE32.ofRat
    rw [Binary32.round_of_multiple (2 ^ 200) 200 8388608 (by decide) (by norm_num)
      (by norm_num) (by norm_num), if_neg (by norm_num)]
    simp
  have hyo : IEEE64.toFloat (IEEE64.ofFloat (IEEE32.infinite false) -
      IEEE64.finite ⟨2 ^ 200⟩) * (0.1 : IEEE32) = IEEE32.infinite false := by
    rw [IEEE32.literal_tenth]
    show IEEE32.mul (IEEE32.infinite false) (IEEE32.finite ⟨13421773 / 2 ^ 27⟩) = _
    have hne : ¬ ((13421773 / 2 ^ 27 : ℚ) = 0) := by norm_num
    have hpos : ¬ ((13421773 / 2 ^ 27 : ℚ) < 0) := by norm_num
    simp [IEEE32.mul, hne, hpos]
  have hadd : IEEE32.finite ⟨0⟩ + IEEE32.infinite false = IEEE32.infinite false := rfl
  have h1 : IEEE32.infinite false > IEEE32.finite ⟨89⟩ := by
    show IEEE32.lt _ _ = true
    rfl
  have h2 : ¬ (IEEE32.finite ⟨89⟩ < IEEE32.finite ⟨-89⟩) := by
    rw [IEEE32.lt_finite]
    norm_num
  refine ⟨hstore, ?_⟩
  rw [mouse_callback_pitch, show (initial : Camera IEEE32).firstMouse = true from rfl,
    if_pos rfl, hstore, hyo, show (initial : Camera IEEE32).pitch = IEEE32.finite ⟨0⟩ from
      IEEE32.literal_zero_float, hadd, IEEE32.literal_neg_89, IEEE32.literal_89, if_pos h1,
    if_neg h2]

/-- The range of the pitch needs a finite cursor position: on the first call with
`ypos` infinite the stored position is infinite, the offset `lastY - ypos` is a NaN, and
so is the pitch, which neither comparison of the clamp replaces. -/
theorem mouse_callback_infinite_cursor (cos sin radians : IEEE32 → IEEE32)
    (normalize : Vec3 IEEE32 → Vec3 IEEE32) :
    (mouse_callback IEEE64.toFloat IEEE64.ofFloat cos sin radians normalize
      (IEEE64.finite ⟨600⟩) (IEEE64.infinite false) initial).pitch = IEEE32.nan := by
  have hyo : IEEE64.toFloat (IEEE64.ofFloat (IEEE64.toFloat (IEEE64.infinite false)) -
      IEEE64.infinite false) * (0.1 : IEEE32) = IEEE32.nan := by
    rw [show IEEE64.toFloat (IEEE64.ofFloat (IEEE64.toFloat (IEEE64.infinite false)) -
      IEEE64.infinite false) = IEEE32.nan from by decide, IEEE32.literal_tenth]
    rfl
  have hadd : IEEE32.finite ⟨0⟩ + IEEE32.nan = IEEE32.nan := rfl
  have h1 : ¬ (IEEE32.nan > IEEE32.finite ⟨89⟩) := by
    show ¬ (IEEE32.lt _ _ = true)
    simp [IEEE32.lt]
  have h2 : ¬ (IEEE32.nan < IEEE32.finite ⟨-89⟩) := by
    show ¬ (IEEE32.lt _ _ = true)
    simp [IEEE32.lt]
  rw [mouse_callback_pitch, show (initial : Camera IEEE32).firstMouse = true from rfl,
    if_pos rfl, hyo, show (initial : Camera IEEE32).pitch = IEEE32.finite ⟨0⟩ from
      IEEE32.literal_zero_float, hadd, IEEE32.literal_neg_89, IEEE32.literal_89, if_neg h1,
    if_neg h2]

end Stairwell

/-! ## The central triangle in `float` arithmetic -/

namespace Binary32

theorem round_one : round 1 = 1 :=
  round_of_multiple 1 0 8388608 (by decide) (by norm_num) (by norm_num) (by norm_num)

theorem round_two : round 2 = 2 :=
  round_of_multiple 2 1 8388608 (by decide) (by norm_num) (by norm_num) (by norm_num)

theorem round_next_after_one : round (1 + 1 / 2 ^ 23) = 1 + 1 / 2 ^ 23 :=
  round_of_multiple (1 + 1 / 2 ^ 23) 0 8388609 (by decide)
    (by rw [abs_of_pos (by norm_num)]; norm_num)
    (by rw [abs_of_pos (by norm_num)]; norm_num) (by norm_num)

/-- Between 2 and 4 the binary32 numbers are `2 ^ (-22)` apart, so `2 + 2 ^ (-23)` lies
half-way between two of them and rounds to the even one, 2. -/
theorem round_tie_above_two : round (2 + 1 / 2 ^ 23) = 2 := by
  have hx : |(2 + 1 / 2 ^ 23 : ℚ)| = 2 + 1 / 2 ^ 23 := abs_of_pos (by norm_num)
  have hl : Int.log 2 |(2 + 1 / 2 ^ 23 : ℚ)| = 1 := by
    apply log_eq
    · rw [hx]
      norm_num
    · rw [hx]
      norm_num
  have hq : quantum (2 + 1 / 2 ^ 23) = 1 / 2 ^ 22 := by
    unfold quantum
    rw [hl]
    norm_num
  unfold round
  rw [hq]
  have hf : ⌊((2 + 1 / 2 ^ 23 : ℚ) / (1 / 2 ^ 22))⌋ = 8388608 := by
    rw [Int.floor_eq_iff]
    norm_num
  unfold roundHalfEven
  rw [hf]
  norm_num

theorem literal_two_float : (2.0 : Binary32) = ⟨2⟩ := by
  show (⟨round (2.0 : ℚ)⟩ : Binary32) = ⟨2⟩
  rw [show (2.0 : ℚ) = 2 by norm_num, round_two]

end Binary32

namespace Subdivision2D

/-- C5, counterexample. In `float` arithmetic the central subtriangle can be among the
leaves.  The triangle `(1, 1)`, `(1 + 2^-23, 1)`, `(1, 1 + 2^-23)` has `float` corners
that are not collinear, but each sum `1 + (1 + 2^-23)` rounds to 2, so its three edge
midpoints all round to `(1, 1)`: at depth 1 the first leaf `(a, ab, ca)` is
`((1, 1), (1, 1), (1, 1))`, which is the triangle `(ab, bc, ca)` of the midpoints. -/
theorem C5_central_triangle_emitted_in_float :
    (Binary32.round 1 = 1 ∧ Binary32.round (1 + 1 / 2 ^ 23) = 1 + 1 / 2 ^ 23) ∧
    nondegenerate (⟨1, 1⟩ : Point2 ℚ) ⟨1 + 1 / 2 ^ 23, 1⟩ ⟨1, 1 + 1 / 2 ^ 23⟩ ∧
    midpoint (⟨⟨1⟩, ⟨1⟩⟩ : Point2 Binary32) ⟨⟨1 + 1 / 2 ^ 23⟩, ⟨1⟩⟩ = ⟨⟨1⟩, ⟨1⟩⟩ ∧
    midpoint (⟨⟨1 + 1 / 2 ^ 23⟩, ⟨1⟩⟩ : Point2 Binary32) ⟨⟨1⟩, ⟨1 + 1 / 2 ^ 23⟩⟩ =
      ⟨⟨1⟩, ⟨1⟩⟩ ∧
    midpoint (⟨⟨1⟩, ⟨1 + 1 / 2 ^ 23⟩⟩ : Point2 Binary32) ⟨⟨1⟩, ⟨1⟩⟩ = ⟨⟨1⟩, ⟨1⟩⟩ ∧
    ∃ l, subdivideTriangle 1 (⟨⟨1⟩, ⟨1⟩⟩ : Point2 Binary32) ⟨⟨1 + 1 / 2 ^ 23⟩, ⟨1⟩⟩
        ⟨⟨1⟩, ⟨1 + 1 / 2 ^ 23⟩⟩ 1 = some l ∧
      (⟨midpoint (⟨⟨1⟩, ⟨1⟩⟩ : Point2 Binary32) ⟨⟨1 + 1 / 2 ^ 23⟩, ⟨1⟩⟩,
        midpoint (⟨⟨1 + 1 / 2 ^ 23⟩, ⟨1⟩⟩ : Point2 Binary32) ⟨⟨1⟩, ⟨1 + 1 / 2 ^ 23⟩⟩,
        midpoint (⟨⟨1⟩, ⟨1 + 1 / 2 ^ 23⟩⟩ : Point2 Binary32) ⟨⟨1⟩, ⟨1⟩⟩⟩ :
          Triangle Binary32) ∈ l ∧
      ∃ t ∈ l, ({t.a, t.b, t.c} : Set (Point2 Binary32)) =
        {midpoint (⟨⟨1⟩, ⟨1⟩⟩ : Point2 Binary32) ⟨⟨1 + 1 / 2 ^ 23⟩, ⟨1⟩⟩,
         midpoint (⟨⟨1 + 1 / 2 ^ 23⟩, ⟨1⟩⟩ : Point2 Binary32) ⟨⟨1⟩, ⟨1 + 1 / 2 ^ 23⟩⟩,
         midpoint (⟨⟨1⟩, ⟨1 + 1 / 2 ^ 23⟩⟩ : Point2 Binary32) ⟨⟨1⟩, ⟨1⟩⟩} := by
  have h11 : ((⟨1⟩ : Binary32) + ⟨1⟩) / (2.0 : Binary32) = ⟨1⟩ := by
    rw [Binary32.literal_two_float]
    show (⟨Binary32.round (Binary32.round (1 + 1) / 2)⟩ : Binary32) = ⟨1⟩
    rw [show (1 + 1 : ℚ) = 2 by norm_num, Binary32.round_two,
      show (2 / 2 : ℚ) = 1 by norm_num, Binary32.round_one]
  have h1e : ((⟨1⟩ : Binary32) + ⟨1 + 1 / 2 ^ 23⟩) / (2.0 : Binary32) = ⟨1⟩ := by
    rw [Binary32.literal_two_float]
    show (⟨Binary32.round (Binary32.round (1 + (1 + 1 / 2 ^ 23)) / 2)⟩ : Binary32) = ⟨1⟩
    rw [show (1 + (1 + 1 / 2 ^ 23) : ℚ) = 2 + 1 / 2 ^ 23 by ring,
      Binary32.round_tie_above_two, show (2 / 2 : ℚ) = 1 by norm_num, Binary32.round_one]
  have he1 : ((⟨1 + 1 / 2 ^ 23⟩ : Binary32) + ⟨1⟩) / (2.0 : Binary32) = ⟨1⟩ := by
    rw [Binary32.literal_two_float]
    show (⟨Binary32.round (Binary32.round (1 + 1 / 2 ^ 23 + 1) / 2)⟩ : Binary32) = ⟨1⟩
    rw [show (1 + 1 / 2 ^ 23 + 1 : ℚ) = 2 + 1 / 2 ^ 23 by ring,
      Binary32.round_tie_above_two, show (2 / 2 : ℚ) = 1 by norm_num, Binary32.round_one]
  have hab : midpoint (⟨⟨1⟩, ⟨1⟩⟩ : Point2 Binary32) ⟨⟨1 + 1 / 2 ^ 23⟩, ⟨1⟩⟩ =
      ⟨⟨1⟩, ⟨1⟩⟩ := by
    simp only [midpoint, h11, h1e]
  have hbc : midpoint (⟨⟨1 + 1 / 2 ^ 23⟩, ⟨1⟩⟩ : Point2 Binary32)
      ⟨⟨1⟩, ⟨1 + 1 / 2 ^ 23⟩⟩ = ⟨⟨1⟩, ⟨1⟩⟩ := by
    simp only [midpoint, he1, h1e]
  have hca : midpoint (⟨⟨1⟩, ⟨1 + 1 / 2 ^ 23⟩⟩ : Point2 Binary32) ⟨⟨1⟩, ⟨1⟩⟩ =
      ⟨⟨1⟩, ⟨1⟩⟩ := by
    simp only [midpoint, h11, he1]
  have hnd : nondegenerate (⟨1, 1⟩ : Point2 ℚ) ⟨1 + 1 / 2 ^ 23, 1⟩ ⟨1, 1 + 1 / 2 ^ 23⟩ := by
    simp only [nondegenerate, cross]
    norm_num
  have hrun : subdivideTriangle 1 (⟨⟨1⟩, ⟨1⟩⟩ : Point2 Binary32) ⟨⟨1 + 1 / 2 ^ 23⟩, ⟨1⟩⟩
      ⟨⟨1⟩, ⟨1 + 1 / 2 ^ 23⟩⟩ 1 =
      some [⟨⟨⟨1⟩, ⟨1⟩⟩, ⟨⟨1⟩, ⟨1⟩⟩, ⟨⟨1⟩, ⟨1⟩⟩⟩,
            ⟨⟨⟨1⟩, ⟨1⟩⟩, ⟨⟨1 + 1 / 2 ^ 23⟩, ⟨1⟩⟩, ⟨⟨1⟩, ⟨1⟩⟩⟩,
            ⟨⟨⟨1⟩, ⟨1⟩⟩, ⟨⟨1⟩, ⟨1⟩⟩, ⟨⟨1⟩, ⟨1 + 1 / 2 ^ 23⟩⟩⟩] := by
    rw [subdivideTriangle_succ _ _ _ _ _ (by decide)]
    simp only [show (1 : Int) - 1 = 0 by decide, subdivideTriangle_zero, hab, hbc, hca]
    rfl
  refine ⟨⟨Binary32.round_one, Binary32.round_next_after_one⟩, hnd, hab, hbc, hca,
    _, hrun, ?_, ⟨⟨⟨1⟩, ⟨1⟩⟩, ⟨⟨1⟩, ⟨1⟩⟩, ⟨⟨1⟩, ⟨1⟩⟩⟩, ?_, ?_⟩
  · rw [hab, hbc, hca]
    simp
  · simp
  · rw [hab, hbc, hca]

end Subdivision2D
